import Mathlib

/-!
Verification of the configshell-fb specification against a shallow
embedding of the source (configshell/node.py, shell.py, prefs.py).

Two models of the node tree are used:
* `Heap` embeds the raw Python object graph (nodes referenced by id, with
  `name` / `parent` / `children` attributes) and is used for the mutating
  operations `add_child` / `del_child`.
* `CTree` embeds a well-shaped tree as an inductive value, nodes being
  addressed by the list of child indices from the root; it is used for the
  read-only path machinery (`_get_path`, `get_node`, completion, prompt).
-/

namespace ConfigShell

/-- Embedding of the ConfigNode object graph: each node is a numeric id with
the three attributes `_name`, `_parent` and `_children` (node.py `__init__`).
`children` is a list standing for the Python set `_children`, its order
standing for the set's iteration order. -/
structure Heap where
  name : Nat → String
  parent : Nat → Option Nat
  children : Nat → List Nat

/-- node.py `is_root`: a node is a root iff its `_parent` is `None`. -/
def isRoot (h : Heap) (n : Nat) : Bool :=
  (h.parent n).isNone

/-- node.py `_set_name`: assigns the node's `_name` attribute. -/
def setName (h : Heap) (n : Nat) (s : String) : Heap :=
  { h with name := fun m => if m = n then s else h.name m }

/-- The two mutations performed at the end of a successful
node.py `add_child`: `child.parent = self` and `self._children.add(child)`. -/
def link (h : Heap) (self child : Nat) : Heap :=
  { h with
    parent := fun m => if m = child then some self else h.parent m,
    children := fun m =>
      if m = self then h.children self ++ [child] else h.children m }

/-- node.py `add_child` lines 1704-1705: `if name is not None: child.name = name`. -/
def renameIf (h : Heap) (c : Nat) : Option String → Heap
  | some s => setName h c s
  | none => h

/-- node.py `ConfigNode.add_child(self, child, name=None)` (lines 1679-1711).
The pair returned is (raised error or unit, heap after the call): Python
mutations performed before a raise persist, so the heap is returned on the
error path as well. Checks are in source order: self-insertion, child
already parented, `self` a *direct* child of `child`, then the rename when
`name` is given, then the duplicate-sibling-name check, then the linking. -/
def addChild (h : Heap) (self child : Nat) (newname : Option String) :
    Except String Unit × Heap :=
  if child = self then
    (Except.error "A node cannot be it's own child.", h)
  else if ¬ isRoot h child then
    (Except.error "Child node already has a parent.", h)
  else if self ∈ h.children child then
    (Except.error "Refusing to add cyclic parent link.", h)
  else
    if (renameIf h child newname).name child ∈
        ((renameIf h child newname).children self).map
          (renameIf h child newname).name then
      (Except.error "Node already has a child named", renameIf h child newname)
    else
      (Except.ok (), link (renameIf h child newname) self child)

/-- The single mutation of node.py `del_child`:
`self._children.remove(child)`. -/
def unlink (h : Heap) (self child : Nat) : Heap :=
  { h with children := fun m =>
      if m = self then (h.children self).erase child else h.children m }

/-- node.py `ConfigNode.del_child` (lines 1713-1722): removes the child from
`self._children` if present, else raises; the child's `_parent` attribute is
left untouched. -/
def delChild (h : Heap) (self child : Nat) : Except String Unit × Heap :=
  if child ∈ h.children self then
    (Except.ok (), unlink h self child)
  else
    (Except.error "Cannot delete: no such child.", h)

/-- Iterated `_parent` attribute lookups: `parentIter h n k` is the node
reached from `n` after `k` steps up the parent links (`none` once a root has
been passed). -/
def parentIter (h : Heap) (n : Nat) : Nat → Option Nat
  | 0 => some n
  | k + 1 =>
    match parentIter h n k with
    | none => none
    | some m => h.parent m

/-- The tree-shape invariant of the node graph: children lists are
duplicate-free and consistent with the parent attribute, every parent chain
terminates (no cycles, and the parent attribute being a function, each node
has at most one parent), and sibling names are pairwise distinct. -/
structure WF (h : Heap) : Prop where
  consistent : ∀ p c, c ∈ h.children p → h.parent c = some p
  nodupChildren : ∀ p, (h.children p).Nodup
  terminating : ∀ n, ∃ k, parentIter h n k = none
  nodupNames : ∀ p, ((h.children p).map h.name).Nodup

theorem parentIter_congr {h h' : Heap} (hp : h'.parent = h.parent)
    (x : Nat) : ∀ k, parentIter h' x k = parentIter h x k := by
  intro k
  induction k with
  | zero => rfl
  | succ k ih =>
    simp only [parentIter, ih, hp]

theorem parentIter_add (h : Heap) (x : Nat) (a b : Nat) :
    parentIter h x (a + b) =
      match parentIter h x a with
      | none => none
      | some m => parentIter h m b := by
  induction b with
  | zero =>
    cases hx : parentIter h x a <;> simp [parentIter, hx]
  | succ b ih =>
    have : a + (b + 1) = (a + b) + 1 := by omega
    rw [this]
    simp only [parentIter, ih]
    cases hx : parentIter h x a
    · rfl
    · rfl

theorem parentIter_link_eq (h : Heap) (p c x : Nat) (k : Nat)
    (hx : ∀ i, i < k → parentIter h x i ≠ some c) :
    parentIter (link h p c) x k = parentIter h x k := by
  induction k with
  | zero => rfl
  | succ k ih =>
    have ih' := ih (fun i hi => hx i (by omega))
    simp only [parentIter, ih']
    cases hk : parentIter h x k with
    | none => rfl
    | some m =>
      have hmc : m ≠ c := by
        intro hmc
        exact hx k (by omega) (hmc ▸ hk)
      simp [link, hmc]

theorem link_terminates (h : Heap) (p c : Nat)
    (hterm : ∀ n, ∃ k, parentIter h n k = none)
    (hnotdesc : ∀ k, parentIter h p k ≠ some c) :
    ∀ x, ∃ k, parentIter (link h p c) x k = none := by
  intro x
  by_cases hx : ∀ i, parentIter h x i ≠ some c
  · obtain ⟨k, hk⟩ := hterm x
    refine ⟨k, ?_⟩
    rw [parentIter_link_eq h p c x k (fun i _ => hx i)]
    exact hk
  · push_neg at hx
    have hex : ∃ j, parentIter h x j = some c := hx
    classical
    let j := Nat.find hex
    have hj : parentIter h x j = some c := Nat.find_spec hex
    have hjmin : ∀ i, i < j → parentIter h x i ≠ some c :=
      fun i hi => Nat.find_min hex hi
    obtain ⟨kp, hkp⟩ := hterm p
    refine ⟨j + 1 + kp, ?_⟩
    have h1 : parentIter (link h p c) x j = some c := by
      rw [parentIter_link_eq h p c x j hjmin]
      exact hj
    have h2 : parentIter (link h p c) x (j + 1) = some p := by
      simp only [parentIter, h1]
      simp [link]
    have h3 : parentIter (link h p c) p kp = none := by
      rw [parentIter_link_eq h p c p kp (fun i _ => hnotdesc i)]
      exact hkp
    rw [parentIter_add]
    rw [h2]
    exact h3

theorem parentIter_stable_none (h : Heap) (x : Nat) (k : Nat)
    (hk : parentIter h x k = none) : ∀ j, k ≤ j → parentIter h x j = none := by
  intro j hj
  induction j with
  | zero =>
    have : k = 0 := Nat.le_zero.mp hj
    exact this ▸ hk
  | succ j ih =>
    rcases Nat.lt_or_ge k (j + 1) with hlt | hge
    · have hj' : parentIter h x j = none := ih (by omega)
      simp [parentIter, hj']
    · have : k = j + 1 := by omega
      exact this ▸ hk

theorem renameIf_parent (h : Heap) (c : Nat) (nm : Option String) :
    (renameIf h c nm).parent = h.parent := by
  cases nm <;> rfl

theorem renameIf_children (h : Heap) (c : Nat) (nm : Option String) :
    (renameIf h c nm).children = h.children := by
  cases nm <;> rfl

theorem renameIf_name_ne (h : Heap) (c : Nat) (nm : Option String) (m : Nat)
    (hm : m ≠ c) : (renameIf h c nm).name m = h.name m := by
  cases nm with
  | none => rfl
  | some s => simp [renameIf, setName, hm]

theorem notMem_children_of_parent_none {h : Heap} {c : Nat} (hwf : WF h)
    (hc : h.parent c = none) : ∀ q, c ∉ h.children q := by
  intro q hq
  have := hwf.consistent q c hq
  rw [hc] at this
  exact Option.noConfusion this

theorem map_name_renameIf (h : Heap) (c : Nat) (nm : Option String)
    (hwf : WF h) (hc : h.parent c = none) (q : Nat) :
    (h.children q).map (renameIf h c nm).name = (h.children q).map h.name := by
  apply List.map_congr_left
  intro a ha
  have hac : a ≠ c := by
    intro hac
    exact notMem_children_of_parent_none hwf hc q (hac ▸ ha)
  exact renameIf_name_ne h c nm a hac

theorem WF_renameIf (h : Heap) (c : Nat) (nm : Option String)
    (hwf : WF h) (hc : h.parent c = none) : WF (renameIf h c nm) := by
  constructor
  · intro q x hx
    rw [renameIf_children] at hx
    rw [renameIf_parent]
    exact hwf.consistent q x hx
  · intro q
    rw [renameIf_children]
    exact hwf.nodupChildren q
  · intro n
    obtain ⟨k, hk⟩ := hwf.terminating n
    refine ⟨k, ?_⟩
    rw [parentIter_congr (renameIf_parent h c nm)]
    exact hk
  · intro q
    rw [renameIf_children, map_name_renameIf h c nm hwf hc]
    exact hwf.nodupNames q

theorem link_WF (h : Heap) (p c : Nat) (hwf : WF h)
    (hc : h.parent c = none)
    (hguard : h.name c ∉ (h.children p).map h.name)
    (hnd : ∀ k, parentIter h p k ≠ some c) : WF (link h p c) := by
  have hcnot : ∀ q, c ∉ h.children q := notMem_children_of_parent_none hwf hc
  constructor
  · intro q x hx
    simp only [link] at hx ⊢
    by_cases hq : q = p
    · subst hq
      rw [if_pos rfl] at hx
      rcases List.mem_append.mp hx with hx' | hx'
      · have hxc : x ≠ c := fun hxc => hcnot q (hxc ▸ hx')
        rw [if_neg hxc]
        exact hwf.consistent q x hx'
      · have hxc : x = c := List.mem_singleton.mp hx'
        subst hxc
        rw [if_pos rfl]
    · rw [if_neg hq] at hx
      have hxc : x ≠ c := fun hxc => hcnot q (hxc ▸ hx)
      rw [if_neg hxc]
      exact hwf.consistent q x hx
  · intro q
    simp only [link]
    by_cases hq : q = p
    · subst hq
      rw [if_pos rfl]
      refine List.Nodup.append (hwf.nodupChildren q) (List.nodup_singleton c) ?_
      intro a ha hb
      rw [List.mem_singleton] at hb
      exact hcnot q (hb ▸ ha)
    · rw [if_neg hq]
      exact hwf.nodupChildren q
  · exact link_terminates h p c hwf.terminating hnd
  · intro q
    simp only [link]
    by_cases hq : q = p
    · subst hq
      rw [if_pos rfl, List.map_append]
      refine List.Nodup.append (hwf.nodupNames q) (List.nodup_singleton _) ?_
      intro a ha hb
      simp only [List.map_singleton, List.mem_singleton] at hb
      exact hguard (hb ▸ ha)
    · rw [if_neg hq]
      exact hwf.nodupNames q

theorem addChild_WF (h : Heap) (p c : Nat) (nm : Option String)
    (hwf : WF h) (hnd : ∀ k, parentIter h p k ≠ some c) :
    WF (addChild h p c nm).2 := by
  unfold addChild
  split
  · exact hwf
  · split
    · exact hwf
    · split
      · exact hwf
      · rename_i hroot _
        rw [not_not] at hroot
        have hcroot : h.parent c = none := by
          simpa [isRoot, Option.isNone_iff_eq_none] using hroot
        have hwf1 : WF (renameIf h c nm) := WF_renameIf h c nm hwf hcroot
        have h1c : (renameIf h c nm).parent c = none := by
          rw [renameIf_parent]
          exact hcroot
        have hnd1 : ∀ k, parentIter (renameIf h c nm) p k ≠ some c := by
          intro k
          rw [parentIter_congr (renameIf_parent h c nm)]
          exact hnd k
        split
        · exact hwf1
        · rename_i hguard
          exact link_WF (renameIf h c nm) p c hwf1 h1c hguard hnd1

theorem unlink_WF (h : Heap) (p c : Nat) (hwf : WF h) : WF (unlink h p c) := by
  constructor
  · intro q x hx
    simp only [unlink] at hx ⊢
    by_cases hq : q = p
    · subst hq
      rw [if_pos rfl] at hx
      exact hwf.consistent q x (List.mem_of_mem_erase hx)
    · rw [if_neg hq] at hx
      exact hwf.consistent q x hx
  · intro q
    simp only [unlink]
    by_cases hq : q = p
    · subst hq
      rw [if_pos rfl]
      exact (hwf.nodupChildren q).erase c
    · rw [if_neg hq]
      exact hwf.nodupChildren q
  · intro n
    obtain ⟨k, hk⟩ := hwf.terminating n
    refine ⟨k, ?_⟩
    rw [parentIter_congr (show (unlink h p c).parent = h.parent from rfl)]
    exact hk
  · intro q
    simp only [unlink]
    by_cases hq : q = p
    · subst hq
      rw [if_pos rfl]
      exact (hwf.nodupNames q).sublist
        (List.Sublist.map h.name (List.erase_sublist c (h.children q)))
    · rw [if_neg hq]
      exact hwf.nodupNames q

theorem delChild_WF (h : Heap) (p c : Nat) (hwf : WF h) :
    WF (delChild h p c).2 := by
  unfold delChild
  split
  · exact unlink_WF h p c hwf
  · exact hwf

/-- C1 (amended): `add_child(p, c)` raises ValueError when `c` is `p`
itself, when `c` already has a parent, or when `p` is a *direct* child of
`c` (deeper descendants are not detected, see the counterexample); when it
returns normally it has attached `c` as a child of `p`; and both `add_child`
and `del_child` preserve the tree invariant `WF` (no cycles, single parent,
duplicate-free sibling names) whenever the claim's preconditions hold, i.e.
`p` is not a descendant of `c`. -/
theorem c1_add_del_tree_invariants :
    (∀ (h : Heap) (p c : Nat) (nm : Option String),
      (c = p ∨ h.parent c ≠ none ∨ p ∈ h.children c) →
        ∃ e, (addChild h p c nm).1 = Except.error e) ∧
    (∀ (h : Heap) (p c : Nat) (nm : Option String),
      (addChild h p c nm).1 = Except.ok () →
        c ∈ (addChild h p c nm).2.children p ∧
        (addChild h p c nm).2.parent c = some p) ∧
    (∀ (h : Heap) (p c : Nat) (nm : Option String), WF h →
      (∀ k, parentIter h p k ≠ some c) → WF (addChild h p c nm).2) ∧
    (∀ (h : Heap) (p c : Nat), WF h → WF (delChild h p c).2) := by
  refine ⟨?_, ?_, fun h p c nm hwf hnd => addChild_WF h p c nm hwf hnd,
    fun h p c hwf => delChild_WF h p c hwf⟩
  · intro h p c nm hbad
    unfold addChild
    split
    · exact ⟨_, rfl⟩
    · split
      · exact ⟨_, rfl⟩
      · split
        · exact ⟨_, rfl⟩
        · rename_i hcp hroot hmem
          rw [not_not] at hroot
          have hcroot : h.parent c = none := by
            simpa [isRoot, Option.isNone_iff_eq_none] using hroot
          rcases hbad with hbad | hbad | hbad
          · exact absurd hbad hcp
          · exact absurd hcroot hbad
          · exact absurd hbad hmem
  · intro h p c nm hok
    by_cases h1 : c = p
    · exfalso
      unfold addChild at hok
      rw [if_pos h1] at hok
      exact Except.noConfusion hok
    · by_cases h2 : ¬ isRoot h c = true
      · exfalso
        unfold addChild at hok
        rw [if_neg h1, if_pos h2] at hok
        exact Except.noConfusion hok
      · by_cases h3 : p ∈ h.children c
        · exfalso
          unfold addChild at hok
          rw [if_neg h1, if_neg h2, if_pos h3] at hok
          exact Except.noConfusion hok
        · by_cases h4 : (renameIf h c nm).name c ∈
              ((renameIf h c nm).children p).map (renameIf h c nm).name
          · exfalso
            unfold addChild at hok
            rw [if_neg h1, if_neg h2, if_neg h3, if_pos h4] at hok
            exact Except.noConfusion hok
          · have heq : addChild h p c nm =
                (Except.ok (), link (renameIf h c nm) p c) := by
              unfold addChild
              rw [if_neg h1, if_neg h2, if_neg h3, if_neg h4]
            rw [heq]
            constructor
            · simp [link, renameIf_children]
            · simp [link]

/-- A heap with the chain c(0) -> m(1) -> p(2): node 2 is a strict
descendant of node 0 at depth two, node 0 is detached from no one (it is the
root of the chain). -/
def cycHeap : Heap where
  name := fun n => match n with
    | 0 => "c"
    | 1 => "m"
    | _ => "p"
  parent := fun n => match n with
    | 1 => some 0
    | 2 => some 1
    | _ => none
  children := fun n => match n with
    | 0 => [1]
    | 1 => [2]
    | _ => []

/-- C1 (counterexample): in `cycHeap` node 2 is a strict descendant of node
0 (its grandchild: two parent steps from 2 reach 0), yet
`add_child(2, 0)` succeeds instead of raising ValueError, and the resulting
graph has a cycle: the parent chain of node 0 never terminates. The claim
that `add_child` raises "in every case where attaching c under p would
create a cycle (including when p is a strict descendant of c)" is false. -/
theorem c1_counterexample :
    (addChild cycHeap 2 0 none).1 = Except.ok () ∧
    parentIter cycHeap 2 2 = some 0 ∧
    ¬ (∃ k, parentIter (addChild cycHeap 2 0 none).2 0 k = none) := by
  refine ⟨rfl, by decide, ?_⟩
  rintro ⟨k, hk⟩
  have hcyc : ∀ j, parentIter (addChild cycHeap 2 0 none).2 0 j = some 0 ∨
      parentIter (addChild cycHeap 2 0 none).2 0 j = some 2 ∨
      parentIter (addChild cycHeap 2 0 none).2 0 j = some 1 := by
    intro j
    induction j with
    | zero => exact Or.inl rfl
    | succ j ih =>
      rcases ih with hj | hj | hj
      · exact Or.inr (Or.inl (by simp only [parentIter, hj]; decide))
      · exact Or.inr (Or.inr (by simp only [parentIter, hj]; decide))
      · exact Or.inl (by simp only [parentIter, hj]; decide)
  rcases hcyc k with hj | hj | hj <;> rw [hk] at hj <;> exact Option.noConfusion hj

/-- A heap where node 0 is a root with one child, node 1 named "x", and
node 2 is a detached root named "y". -/
def simpleHeap : Heap where
  name := fun n => match n with
    | 1 => "x"
    | 2 => "y"
    | _ => "r"
  parent := fun n => match n with
    | 1 => some 0
    | _ => none
  children := fun n => match n with
    | 0 => [1]
    | _ => []

theorem simpleHeap_WF : WF simpleHeap := by
  constructor
  · intro q x hx
    match q with
    | 0 =>
      have : x = 1 := by simpa [simpleHeap] using hx
      subst this
      rfl
    | q + 1 => simp [simpleHeap] at hx
  · intro q
    match q with
    | 0 => decide
    | q + 1 => simp [simpleHeap]
  · intro n
    match n with
    | 0 => exact ⟨1, rfl⟩
    | 1 => exact ⟨2, rfl⟩
    | n + 2 => exact ⟨1, rfl⟩
  · intro q
    match q with
    | 0 => decide
    | q + 1 => simp [simpleHeap]

theorem c1_witness :
    WF (addChild simpleHeap 0 2 none).2 ∧ WF (delChild simpleHeap 0 1).2 :=
  ⟨c1_add_del_tree_invariants.2.2.1 simpleHeap 0 2 none simpleHeap_WF
    (by
      intro k
      match k with
      | 0 => decide
      | k + 1 =>
        have : parentIter simpleHeap 0 (k + 1) = none :=
          parentIter_stable_none simpleHeap 0 1 rfl (k + 1) (by omega)
        rw [this]
        exact fun h => Option.noConfusion h),
   c1_add_del_tree_invariants.2.2.2 simpleHeap 0 1 simpleHeap_WF⟩

/-- C10: when `add_child` is called with an explicit name and fails only the
duplicate-sibling-name check, the child keeps the new name (the rename at
node.py line 1705 happens before the check at line 1707), while the parent
and children attributes of every node are untouched. -/
theorem c10_rename_before_validate :
    ∀ (h : Heap) (p c : Nat) (s : String),
      c ≠ p → h.parent c = none → p ∉ h.children c → c ∉ h.children p →
      s ∈ (h.children p).map h.name →
      (addChild h p c (some s)).1 =
          Except.error "Node already has a child named" ∧
      (addChild h p c (some s)).2.name c = s ∧
      (addChild h p c (some s)).2.parent = h.parent ∧
      (addChild h p c (some s)).2.children = h.children := by
  intro h p c s hcp hcroot hpc hcnotp hdup
  have hroot : ¬ (¬ isRoot h c = true) := by simp [isRoot, hcroot]
  have hmap : (h.children p).map (setName h c s).name =
      (h.children p).map h.name := by
    apply List.map_congr_left
    intro a ha
    have hac : a ≠ c := fun hac => hcnotp (hac ▸ ha)
    simp [setName, hac]
  have hguard : (renameIf h c (some s)).name c ∈
      ((renameIf h c (some s)).children p).map (renameIf h c (some s)).name := by
    simp only [renameIf]
    have hnamec : (setName h c s).name c = s := by simp [setName]
    rw [hnamec]
    show s ∈ (h.children p).map (setName h c s).name
    rw [hmap]
    exact hdup
  have heq : addChild h p c (some s) =
      (Except.error "Node already has a child named", renameIf h c (some s)) := by
    unfold addChild
    rw [if_neg hcp, if_neg hroot, if_neg hpc, if_pos hguard]
  rw [heq]
  refine ⟨rfl, by simp [renameIf, setName], rfl, rfl⟩

theorem c10_witness :
    (addChild simpleHeap 0 2 (some "x")).1 =
        Except.error "Node already has a child named" ∧
    (addChild simpleHeap 0 2 (some "x")).2.name 2 = "x" ∧
    (addChild simpleHeap 0 2 (some "x")).2.parent = simpleHeap.parent ∧
    (addChild simpleHeap 0 2 (some "x")).2.children = simpleHeap.children :=
  c10_rename_before_validate simpleHeap 0 2 "x" (by decide) rfl (by decide)
    (by decide) (by decide)

/-! ## Value model of the node tree

For the read-only machinery (`_get_path`, `get_node`, completion, prompt,
`cd` history) a well-shaped tree is embedded as an inductive value. A node
is addressed by the list of child indices leading to it from the root; the
list order of `children` stands for the iteration order of the Python set
`_children`. -/

inductive CTree where
  | node (name : String) (children : List CTree)

def CTree.name : CTree → String
  | .node n _ => n

def CTree.children : CTree → List CTree
  | .node _ cs => cs

/-- The node addressed by following the given child indices. -/
def subtreeAt (t : CTree) : List Nat → Option CTree
  | [] => some t
  | i :: rest =>
    match t.children[i]? with
    | some c => subtreeAt c rest
    | none => none

def validAddr (t : CTree) (a : List Nat) : Bool :=
  (subtreeAt t a).isSome

def nameAt (t : CTree) (a : List Nat) : String :=
  match subtreeAt t a with
  | some s => s.name
  | none => ""

/-- node.py `_get_path` (lines 1311-1322): root renders as `/`, a child of
the root as `/name`, any other node as its parent's path followed by
`/name`. In the address model the parent is `dropLast` and the root is the
empty address; the fuel argument is the address length, consumed exactly
one unit per parent step. -/
def nodePathF : Nat → CTree → List Nat → String
  | 0, _, _ => "/"
  | fuel + 1, t, a =>
    if a = [] then "/"
    else if a.dropLast = [] then "/" ++ nameAt t a
    else nodePathF fuel t a.dropLast ++ "/" ++ nameAt t a

def nodePath (t : CTree) (a : List Nat) : String :=
  nodePathF a.length t a

/-! ### Python string primitives used by `get_node`, on `List Char` -/

/-- `re.sub('/+', '/', path)`: collapse runs of `/` to a single `/`. -/
def collapseSlashes : List Char → List Char
  | [] => []
  | [c] => [c]
  | c :: d :: rest =>
    if c = '/' ∧ d = '/' then collapseSlashes (d :: rest)
    else c :: collapseSlashes (d :: rest)

/-- Python `str.rstrip('/')`. -/
def rstripSlash (l : List Char) : List Char :=
  (l.reverse.dropWhile (fun c => c = '/')).reverse

/-- Python `str.strip()` (whitespace on both sides). -/
def pyStrip (l : List Char) : List Char :=
  ((l.dropWhile Char.isWhitespace).reverse.dropWhile Char.isWhitespace).reverse

/-- Python `path.split('/', 1)` for a path known to contain `/`:
the characters before the first `/` and those after it. -/
def splitFirst (sep : Char) : List Char → List Char × List Char
  | [] => ([], [])
  | c :: rest =>
    if c = sep then ([], rest)
    else
      let p := splitFirst sep rest
      (c :: p.1, p.2)

/-- Lookup in the `prefs['bookmarks']` dict, embedded as an
association list. -/
def lookupStr (d : List (String × String)) (k : String) : Option String :=
  (d.find? (fun kv => kv.1 == k)).map (fun kv => kv.2)

/-- node.py `get_child` (lines 1603-1616): the first child whose name
matches, as an index into the children list (the source iterates the
`_children` set and returns the first match). -/
def childIdx (cs : List CTree) (nm : String) : Option Nat :=
  match cs with
  | [] => none
  | c :: rest =>
    if c.name = nm then some 0
    else (childIdx rest nm).map (fun i => i + 1)

def getChildAddr (t : CTree) (self : List Nat) (nm : String) :
    Except String (List Nat) :=
  match subtreeAt t self with
  | none => Except.error "invalid starting node"
  | some st =>
    match childIdx st.children nm with
    | some i => Except.ok (self ++ [i])
    | none => Except.error ("No such path " ++ nm)

/-- node.py `get_node.adjacent_node` (lines 1627-1639): `.` is the node
itself, `..` its parent (the root when there is no parent), anything else a
child lookup. -/
def adjacentNode (t : CTree) (self : List Nat) (nm : List Char) :
    Except String (List Nat) :=
  if nm = ['.'] then Except.ok self
  else if nm = ['.', '.'] then
    Except.ok (if self = [] then [] else self.dropLast)
  else getChildAddr t self (String.mk nm)

/-- node.py `ConfigNode.get_node` (lines 1618-1677), on the characters of
the path. `bm` embeds `prefs['bookmarks']`. The `fuel` argument bounds the
recursion depth, standing for the Python call stack (the source recurses
unboundedly and would hit Python's recursion limit on crafted
bookmark-to-bookmark paths; fuel exhaustion models that RuntimeError).
Steps in source order: empty path defaults to `.`; a leading `@` resolves a
bookmark; runs of `/` are collapsed; a trailing `/` is stripped unless the
path has length one; an absolute path restarts from the root; a path with a
`/` splits off its first segment; a single segment is looked up adjacently. -/
def getNodeF (t : CTree) (bm : List (String × String)) :
    Nat → List Nat → List Char → Except String (List Nat)
  | 0, _, _ => Except.error "maximum recursion depth exceeded"
  | fuel + 1, self, path0 =>
    let path1 := if path0 = [] then ['.'] else path0
    match (if path1.headD ' ' = '@' then
            match lookupStr bm
                (String.mk (pyStrip (path1.dropWhile (fun c => c = '@')))) with
            | some v => Except.ok v.data
            | none =>
              Except.error ("No such bookmark " ++
                String.mk (pyStrip (path1.dropWhile (fun c => c = '@'))))
          else Except.ok path1) with
    | Except.error e => Except.error e
    | Except.ok path2 =>
      let path3 := collapseSlashes path2
      let path4 := if path3.length > 1 then rstripSlash path3 else path3
      if path4.headD ' ' = '/' then
        let next := path4.dropWhile (fun c => c = '/')
        if next ≠ [] then getNodeF t bm fuel [] next
        else Except.ok []
      else if '/' ∈ path4 then
        match adjacentNode t self (splitFirst '/' path4).1 with
        | Except.ok a2 => getNodeF t bm fuel a2 (splitFirst '/' path4).2
        | Except.error e => Except.error e
      else adjacentNode t self path4

/-- `get_node` on a string path, with fuel covering any recursion the path
itself can drive (one level per character suffices for bookmark-free
paths). -/
def getNode (t : CTree) (bm : List (String × String)) (self : List Nat)
    (path : String) : Except String (List Nat) :=
  getNodeF t bm (path.length + 1) self path.data

/-- node.py `get_node` again, threading the tree as explicit state: every
statement of the source is a read, so each branch passes the tree through
unchanged and each recursive call returns the tree produced by the
sub-call. -/
def getNodeSF (t : CTree) (bm : List (String × String)) :
    Nat → List Nat → List Char → Except String (List Nat) × CTree
  | 0, _, _ => (Except.error "maximum recursion depth exceeded", t)
  | fuel + 1, self, path0 =>
    let path1 := if path0 = [] then ['.'] else path0
    match (if path1.headD ' ' = '@' then
            match lookupStr bm
                (String.mk (pyStrip (path1.dropWhile (fun c => c = '@')))) with
            | some v => Except.ok v.data
            | none =>
              Except.error ("No such bookmark " ++
                String.mk (pyStrip (path1.dropWhile (fun c => c = '@'))))
          else Except.ok path1) with
    | Except.error e => (Except.error e, t)
    | Except.ok path2 =>
      let path3 := collapseSlashes path2
      let path4 := if path3.length > 1 then rstripSlash path3 else path3
      if path4.headD ' ' = '/' then
        let next := path4.dropWhile (fun c => c = '/')
        if next ≠ [] then getNodeSF t bm fuel [] next
        else (Except.ok [], t)
      else if '/' ∈ path4 then
        match adjacentNode t self (splitFirst '/' path4).1 with
        | Except.ok a2 => getNodeSF t bm fuel a2 (splitFirst '/' path4).2
        | Except.error e => (Except.error e, t)
      else (adjacentNode t self path4, t)

/-- The state-threaded `get_node` on a string path. -/
def getNodeS (t : CTree) (bm : List (String × String)) (self : List Nat)
    (path : String) : Except String (List Nat) × CTree :=
  getNodeSF t bm (path.length + 1) self path.data

theorem getNodeSF_frame (t : CTree) (bm : List (String × String)) :
    ∀ (fuel : Nat) (self : List Nat) (p : List Char),
      getNodeSF t bm fuel self p = (getNodeF t bm fuel self p, t) := by
  intro fuel
  induction fuel with
  | zero => intro self p; rfl
  | succ fuel ih =>
    intro self p
    simp only [getNodeSF, getNodeF]
    split
    · rfl
    · split
      all_goals
        split
        · split
          · exact ih _ _
          · rfl
        · split
          · split
            · exact ih _ _
            · rfl
          · rfl

/-- C9: `get_node` is read-only on the tree. The state-threaded embedding
`getNodeS`, in which every statement of the source passes the tree state
along, returns the unchanged tree together with the value computed by the
pure embedding, for every starting node and every path string, whether
resolution succeeds or fails. -/
theorem c9_get_node_readonly :
    ∀ (t : CTree) (bm : List (String × String)) (self : List Nat)
      (path : String), getNodeS t bm self path = (getNode t bm self path, t) :=
  fun t bm self path => getNodeSF_frame t bm (path.length + 1) self path.data

/-! ### Facts about the string primitives on well-formed path segments -/

theorem mem_of_head? {l : List Char} {c : Char} (h : l.head? = some c) :
    c ∈ l := by
  cases l with
  | nil => exact Option.noConfusion h
  | cons a r =>
    have : a = c := by simpa using h
    exact this ▸ List.mem_cons_self a r

theorem mem_of_getLast? {l : List Char} {c : Char} (h : l.getLast? = some c) :
    c ∈ l := by
  have h' : l.reverse.head? = some c := by
    rw [List.head?_reverse]
    exact h
  have := mem_of_head? h'
  exact List.mem_reverse.mp this

theorem collapse_of_chain :
    ∀ l : List Char, l.Chain' (fun a b => ¬(a = '/' ∧ b = '/')) →
      collapseSlashes l = l := by
  intro l hl
  induction l with
  | nil => rfl
  | cons c rest ih =>
    cases rest with
    | nil => rfl
    | cons d rest' =>
      rw [List.chain'_cons] at hl
      simp only [collapseSlashes]
      rw [if_neg hl.1]
      rw [ih hl.2]

theorem noSlash_chain (l : List Char) (h : '/' ∉ l) :
    l.Chain' (fun a b => ¬(a = '/' ∧ b = '/')) := by
  induction l with
  | nil => exact List.chain'_nil
  | cons c rest ih =>
    cases rest with
    | nil => exact List.chain'_singleton c
    | cons d rest' =>
      rw [List.chain'_cons]
      refine ⟨fun hc => h (hc.1 ▸ List.mem_cons_self c _), ?_⟩
      exact ih (fun hm => h (List.mem_cons_of_mem c hm))

theorem rstrip_of_getLast (l : List Char) (h : l.getLast? ≠ some '/') :
    rstripSlash l = l := by
  unfold rstripSlash
  cases hrev : l.reverse with
  | nil =>
    have : l = [] := by simpa using congrArg List.reverse hrev
    subst this
    rfl
  | cons c r =>
    have hlast : l.getLast? = some c := by
      rw [← List.head?_reverse, hrev]
      rfl
    have hc : ¬ (c = '/') := fun hc => h (hc ▸ hlast)
    rw [List.dropWhile_cons, if_neg (by simp [hc])]
    rw [← hrev, List.reverse_reverse]

theorem dropWhile_of_head {l : List Char} {c : Char} (hl : l.head? = some c)
    (hc : ¬ (c = '/')) : l.dropWhile (fun x => x = '/') = l := by
  cases l with
  | nil => rfl
  | cons a r =>
    have hac : a = c := by simpa using hl
    subst hac
    rw [List.dropWhile_cons, if_neg (by simp [hc])]

/-- `/`-join of path segments, the shape of the relative part of a rendered
node path. -/
def joinSlash : List (List Char) → List Char
  | [] => []
  | [s] => s
  | s :: r :: rest => s ++ '/' :: joinSlash (r :: rest)

theorem joinSlash_ne_nil (s : List Char) (rest : List (List Char))
    (hs : s ≠ []) : joinSlash (s :: rest) ≠ [] := by
  cases rest with
  | nil => exact hs
  | cons r rest' =>
    simp only [joinSlash]
    simp [hs]

theorem joinSlash_head? (s : List Char) (rest : List (List Char))
    (hs : s ≠ []) : (joinSlash (s :: rest)).head? = s.head? := by
  cases rest with
  | nil => rfl
  | cons r rest' =>
    cases s with
    | nil => exact absurd rfl hs
    | cons a s' => rfl

theorem joinSlash_getLast? (segs : List (List Char))
    (hall : ∀ s ∈ segs, s ≠ [] ∧ '/' ∉ s) (hne : segs ≠ []) :
    ∀ c, (joinSlash segs).getLast? = some c → ¬ (c = '/') := by
  induction segs with
  | nil => exact absurd rfl hne
  | cons s rest ih =>
    cases rest with
    | nil =>
      intro c hc hcs
      have hs := hall s (List.mem_cons_self s [])
      exact hs.2 (hcs ▸ (mem_of_getLast? hc : c ∈ s))
    | cons r rest' =>
      intro c hc hcs
      have hrne : joinSlash (r :: rest') ≠ [] :=
        joinSlash_ne_nil r rest' (hall r (by simp)).1
      rw [joinSlash, List.getLast?_append_cons] at hc
      have hc' : (joinSlash (r :: rest')).getLast? = some c := by
        cases hj : joinSlash (r :: rest') with
        | nil => exact absurd hj hrne
        | cons a l =>
          rw [hj] at hc
          rw [show ('/' :: a :: l) = ['/'] ++ a :: l from rfl,
            List.getLast?_append_cons] at hc
          exact hc
      exact ih (fun x hx => hall x (List.mem_cons_of_mem s hx)) (by simp) c hc' hcs

theorem joinSlash_chain (segs : List (List Char))
    (hall : ∀ s ∈ segs, s ≠ [] ∧ '/' ∉ s) :
    (joinSlash segs).Chain' (fun a b => ¬(a = '/' ∧ b = '/')) := by
  induction segs with
  | nil => exact List.chain'_nil
  | cons s rest ih =>
    cases rest with
    | nil => exact noSlash_chain s (hall s (by simp)).2
    | cons r rest' =>
      have hs := hall s (by simp)
      have hr := hall r (by simp)
      rw [joinSlash, List.chain'_append]
      refine ⟨noSlash_chain s hs.2, ?_, ?_⟩
      · rw [List.chain'_cons']
        constructor
        · intro y hy
          rw [joinSlash_head? r rest' hr.1] at hy
          have : y ∈ r := mem_of_head? hy
          exact fun hcc => hr.2 (hcc.2 ▸ this)
        · exact ih (fun x hx => hall x (List.mem_cons_of_mem s hx))
      · intro x hx y hy
        have hxs : x ∈ s := mem_of_getLast? hx
        exact fun hcc => hs.2 (hcc.1 ▸ hxs)

theorem splitFirst_join (s rest : List Char) (hs : '/' ∉ s) :
    splitFirst '/' (s ++ '/' :: rest) = (s, rest) := by
  induction s with
  | nil =>
    simp [splitFirst]
  | cons c s' ih =>
    have hc : ¬ (c = '/') := fun hc => hs (hc ▸ List.mem_cons_self c s')
    have ih' := ih (fun hm => hs (List.mem_cons_of_mem c hm))
    rw [List.cons_append]
    simp only [splitFirst, if_neg hc]
    rw [ih']

/-! ### Well-formed trees and the rendered-path round trip -/

/-- A node name that the path syntax can denote: nonempty, not the `.` or
`..` specials, free of the separator, and not starting with the bookmark
sigil `@` (`get_node` re-enters itself on each path segment, so a segment
starting with `@` would be taken for a bookmark). -/
def goodName (s : String) : Prop :=
  s ≠ "" ∧ s ≠ "." ∧ s ≠ ".." ∧ '/' ∉ s.data ∧ s.data.headD ' ' ≠ '@'

instance (s : String) : Decidable (goodName s) := by
  unfold goodName
  infer_instance

/-- The tree invariant `add_child` maintains, restricted to denotable
names: sibling names pairwise distinct and every name a `goodName`. -/
inductive WfTree : CTree → Prop
  | mk (nm : String) (cs : List CTree)
      (hnd : (cs.map CTree.name).Nodup)
      (hgood : ∀ c ∈ cs, goodName c.name)
      (hwf : ∀ c ∈ cs, WfTree c) : WfTree (.node nm cs)

theorem WfTree.namesNodup {t : CTree} (h : WfTree t) :
    (t.children.map CTree.name).Nodup := by
  cases h with
  | mk nm cs hnd hgood hwf => exact hnd

theorem WfTree.childGood {t : CTree} (h : WfTree t) :
    ∀ c ∈ t.children, goodName c.name := by
  cases h with
  | mk nm cs hnd hgood hwf => exact hgood

theorem WfTree.childWf {t : CTree} (h : WfTree t) :
    ∀ c ∈ t.children, WfTree c := by
  cases h with
  | mk nm cs hnd hgood hwf => exact hwf

theorem string_data_inj {a b : String} (h : a.data = b.data) : a = b := by
  cases a
  cases b
  cases h
  rfl

theorem goodName_facts {s : String} (h : goodName s) :
    s.data ≠ [] ∧ '/' ∉ s.data ∧ s.data ≠ ['.'] ∧ s.data ≠ ['.', '.'] ∧
      s.data.headD ' ' ≠ '@' := by
  refine ⟨?_, h.2.2.2.1, ?_, ?_, h.2.2.2.2⟩
  · intro hd
    exact h.1 (string_data_inj (by rw [hd]))
  · intro hd
    exact h.2.1 (string_data_inj (by rw [hd]))
  · intro hd
    exact h.2.2.1 (string_data_inj (by rw [hd]))

theorem headD_ne_slash {l : List Char} (hne : l ≠ []) (hns : '/' ∉ l) :
    l.headD ' ' ≠ '/' := by
  cases l with
  | nil => exact absurd rfl hne
  | cons a r =>
    intro hh
    have ha : a = '/' := hh
    exact hns (ha ▸ List.mem_cons_self a r)

theorem headD_congr {l1 l2 : List Char} (h : l1.head? = l2.head?) :
    l1.headD ' ' = l2.headD ' ' := by
  rw [List.headD_eq_head?, List.headD_eq_head?, h]

theorem subtreeAt_append (t : CTree) (a b : List Nat) :
    subtreeAt t (a ++ b) = (subtreeAt t a).bind (fun s => subtreeAt s b) := by
  induction a generalizing t with
  | nil => simp [subtreeAt]
  | cons i a' ih =>
    rw [List.cons_append]
    simp only [subtreeAt]
    cases t.children[i]? with
    | none => rfl
    | some c => exact ih c

theorem subtreeAt_cons_some {st : CTree} {i : Nat} {rest : List Nat}
    (hv : (subtreeAt st (i :: rest)).isSome) :
    ∃ c, st.children[i]? = some c ∧ (subtreeAt c rest).isSome := by
  cases hc : st.children[i]? with
  | none =>
    rw [subtreeAt, hc] at hv
    exact absurd hv (by simp)
  | some c =>
    refine ⟨c, rfl, ?_⟩
    rw [subtreeAt, hc] at hv
    exact hv

/-- The characters of the names along a relative address, the segments of
the rendered path below a node. -/
def relNames (st : CTree) : List Nat → List (List Char)
  | [] => []
  | i :: rest =>
    match st.children[i]? with
    | some c => c.name.data :: relNames c rest
    | none => []

theorem relNames_good (st : CTree) (b : List Nat) (hwf : WfTree st)
    (hv : (subtreeAt st b).isSome) :
    ∀ s ∈ relNames st b, s ≠ [] ∧ '/' ∉ s := by
  induction b generalizing st with
  | nil =>
    intro s hs
    simp [relNames] at hs
  | cons i rest ih =>
    obtain ⟨c, hc, hv'⟩ := subtreeAt_cons_some hv
    have hcmem : c ∈ st.children := List.getElem?_mem hc
    have hgood := goodName_facts (hwf.childGood c hcmem)
    intro s hs
    rw [relNames.eq_def] at hs
    simp only [hc] at hs
    rcases List.mem_cons.mp hs with hs | hs
    · exact hs ▸ ⟨hgood.1, hgood.2.1⟩
    · exact ih c (hwf.childWf c hcmem) hv' s hs

theorem childIdx_first (cs : List CTree) :
    ∀ (i : Nat) (c : CTree), (cs.map CTree.name).Nodup → cs[i]? = some c →
      childIdx cs c.name = some i := by
  induction cs with
  | nil =>
    intro i c _ hc
    simp at hc
  | cons x rest ih =>
    intro i c hnd hc
    cases i with
    | zero =>
      have hxc : x = c := by simpa using hc
      subst hxc
      simp [childIdx]
    | succ j =>
      have hc' : rest[j]? = some c := by simpa using hc
      have hcm : c ∈ rest := List.getElem?_mem hc'
      have hnd' : (x.name :: rest.map CTree.name).Nodup := by
        simpa using hnd
      have hx : ¬ (x.name = c.name) := by
        intro hq
        exact (List.nodup_cons.mp hnd').1
          (hq ▸ List.mem_map_of_mem CTree.name hcm)
      rw [childIdx, if_neg hx, ih j c (List.nodup_cons.mp hnd').2 hc']
      rfl

theorem adjacentNode_child (t : CTree) (self : List Nat) (st c : CTree)
    (i : Nat) (hsub : subtreeAt t self = some st) (hgood : goodName c.name)
    (hnd : (st.children.map CTree.name).Nodup)
    (hc : st.children[i]? = some c) :
    adjacentNode t self c.name.data = Except.ok (self ++ [i]) := by
  have hfacts := goodName_facts hgood
  unfold adjacentNode
  rw [if_neg hfacts.2.2.1, if_neg hfacts.2.2.2.1]
  unfold getChildAddr
  simp only [hsub]
  have hmk : String.mk c.name.data = c.name := rfl
  rw [hmk]
  simp only [childIdx_first st.children i c hnd hc]

/-- Evaluation of one `get_node` call on a path that is already clean:
nonempty, no leading `@`, stable under slash collapsing and under the
trailing-slash strip. -/
theorem getNodeF_plain (t : CTree) (bm : List (String × String)) (fuel : Nat)
    (self : List Nat) (p : List Char) (hne : p ≠ [])
    (hat : p.headD ' ' ≠ '@')
    (hcol : collapseSlashes p = p) (hstrip : rstripSlash p = p) :
    getNodeF t bm (fuel + 1) self p =
      if p.headD ' ' = '/' then
        (if p.dropWhile (fun c => c = '/') ≠ [] then
          getNodeF t bm fuel [] (p.dropWhile (fun c => c = '/'))
        else Except.ok [])
      else if '/' ∈ p then
        (match adjacentNode t self (splitFirst '/' p).1 with
         | Except.ok a2 => getNodeF t bm fuel a2 (splitFirst '/' p).2
         | Except.error e => Except.error e)
      else adjacentNode t self p := by
  simp only [getNodeF, if_neg hne, if_neg hat, hcol, hstrip, ite_self]

theorem resolveRel (t : CTree) (bm : List (String × String)) :
    ∀ (b : List Nat) (st : CTree) (self : List Nat) (fuel : Nat),
      subtreeAt t self = some st → WfTree st →
      (subtreeAt st b).isSome → b ≠ [] →
      (joinSlash (relNames st b)).length < fuel →
      getNodeF t bm fuel self (joinSlash (relNames st b)) =
        Except.ok (self ++ b) := by
  intro b
  induction b with
  | nil =>
    intro st self fuel _ _ _ hne _
    exact absurd rfl hne
  | cons i rest ih =>
    intro st self fuel hsub hwf hv hne hfuel
    obtain ⟨c, hc, hvrest⟩ := subtreeAt_cons_some hv
    have hcmem : c ∈ st.children := List.getElem?_mem hc
    have hgood := hwf.childGood c hcmem
    have hfacts := goodName_facts hgood
    cases fuel with
    | zero => omega
    | succ f =>
      cases rest with
      | nil =>
        have hrel : relNames st [i] = [c.name.data] := by
          simp only [relNames.eq_def, hc]
        rw [hrel] at hfuel ⊢
        have hjoin : joinSlash [c.name.data] = c.name.data := rfl
        rw [hjoin] at hfuel ⊢
        have hlastne : c.name.data.getLast? ≠ some '/' :=
          fun hl => hfacts.2.1 (mem_of_getLast? hl)
        rw [getNodeF_plain t bm f self c.name.data hfacts.1 hfacts.2.2.2.2
          (collapse_of_chain _ (noSlash_chain _ hfacts.2.1))
          (rstrip_of_getLast _ hlastne)]
        rw [if_neg (headD_ne_slash hfacts.1 hfacts.2.1),
          if_neg hfacts.2.1]
        exact adjacentNode_child t self st c i hsub hgood hwf.namesNodup hc
      | cons j rest' =>
        obtain ⟨d, hd, _⟩ := subtreeAt_cons_some hvrest
        have hrel : relNames st (i :: j :: rest') =
            c.name.data :: relNames c (j :: rest') := by
          rw [relNames.eq_def]
          simp only [hc]
        have hrne : relNames c (j :: rest') =
            d.name.data :: relNames d rest' := by
          rw [relNames.eq_def]
          simp only [hd]
        have hall : ∀ s ∈ relNames st (i :: j :: rest'), s ≠ [] ∧ '/' ∉ s :=
          relNames_good st (i :: j :: rest') hwf hv
        have hjoin : joinSlash (relNames st (i :: j :: rest')) =
            c.name.data ++ '/' :: joinSlash (relNames c (j :: rest')) := by
          rw [hrel, hrne]
          rfl
        have hjoinrne : joinSlash (relNames c (j :: rest')) ≠ [] := by
          rw [hrne]
          refine joinSlash_ne_nil _ _ ?_
          have := hall d.name.data (by rw [hrel, hrne]; simp)
          exact this.1
        have hpne : joinSlash (relNames st (i :: j :: rest')) ≠ [] := by
          rw [hrel]
          exact joinSlash_ne_nil _ _ hfacts.1
        have hhead : (joinSlash (relNames st (i :: j :: rest'))).head? =
            c.name.data.head? := by
          rw [hrel]
          exact joinSlash_head? _ _ hfacts.1
        have hatj : (joinSlash (relNames st (i :: j :: rest'))).headD ' ' ≠ '@' := by
          rw [headD_congr hhead]
          exact hfacts.2.2.2.2
        have hheadslash :
            (joinSlash (relNames st (i :: j :: rest'))).headD ' ' ≠ '/' := by
          rw [headD_congr hhead]
          exact headD_ne_slash hfacts.1 hfacts.2.1
        have hrellist : relNames st (i :: j :: rest') ≠ [] := by
          rw [hrel]
          simp
        have hlastj :
            (joinSlash (relNames st (i :: j :: rest'))).getLast? ≠ some '/' :=
          fun hl => joinSlash_getLast? _ hall hrellist '/' hl rfl
        rw [getNodeF_plain t bm f self _ hpne hatj
          (collapse_of_chain _ (joinSlash_chain _ hall))
          (rstrip_of_getLast _ hlastj)]
        rw [if_neg hheadslash]
        have hmem : '/' ∈ joinSlash (relNames st (i :: j :: rest')) := by
          rw [hjoin]
          exact List.mem_append.mpr (Or.inr (List.mem_cons_self _ _))
        rw [if_pos hmem]
        have hsplit : splitFirst '/' (joinSlash (relNames st (i :: j :: rest'))) =
            (c.name.data, joinSlash (relNames c (j :: rest'))) := by
          rw [hjoin]
          exact splitFirst_join _ _ hfacts.2.1
        rw [hsplit]
        simp only [adjacentNode_child t self st c i hsub hgood hwf.namesNodup hc]
        have hsub' : subtreeAt t (self ++ [i]) = some c := by
          rw [subtreeAt_append, hsub]
          show subtreeAt st [i] = some c
          rw [subtreeAt, hc]
          rfl
        have hflen : (joinSlash (relNames c (j :: rest'))).length < f := by
          have h1 : (joinSlash (relNames st (i :: j :: rest'))).length =
              c.name.data.length + 1 +
                (joinSlash (relNames c (j :: rest'))).length := by
            rw [hjoin]
            simp [List.length_append]
            omega
          have h2 : 1 ≤ c.name.data.length :=
            List.length_pos.mpr hfacts.1
          omega
        have := ih c (self ++ [i]) f hsub' (hwf.childWf c hcmem) hvrest
          (by simp) hflen
        rw [this]
        simp

theorem relNames_ne_nil {t : CTree} {a : List Nat}
    (hv : (subtreeAt t a).isSome) (hne : a ≠ []) : relNames t a ≠ [] := by
  cases a with
  | nil => exact absurd rfl hne
  | cons i rest =>
    obtain ⟨c, hc, _⟩ := subtreeAt_cons_some hv
    rw [relNames.eq_def]
    simp [hc]

theorem joinSlash_concat (segs : List (List Char)) (v : List Char)
    (hne : segs ≠ []) :
    joinSlash (segs ++ [v]) = joinSlash segs ++ '/' :: v := by
  induction segs with
  | nil => exact absurd rfl hne
  | cons s rest ih =>
    cases rest with
    | nil => rfl
    | cons r rest' =>
      have := ih (by simp)
      rw [show ((s :: r :: rest') ++ [v]) = s :: ((r :: rest') ++ [v]) from rfl]
      rw [show (r :: rest') ++ [v] = r :: (rest' ++ [v]) from rfl]
      rw [joinSlash, joinSlash]
      rw [show r :: (rest' ++ [v]) = (r :: rest') ++ [v] from rfl, this]
      simp

theorem nameAt_cons (t : CTree) (j : Nat) (a : List Nat) (c : CTree)
    (hc : t.children[j]? = some c) : nameAt t (j :: a) = nameAt c a := by
  rw [nameAt.eq_def, nameAt.eq_def]
  rw [subtreeAt.eq_def]
  simp only [hc]

theorem relNames_concat (t : CTree) :
    ∀ (a : List Nat) (i : Nat), (subtreeAt t (a ++ [i])).isSome →
      relNames t (a ++ [i]) = relNames t a ++ [(nameAt t (a ++ [i])).data] := by
  intro a
  induction a generalizing t with
  | nil =>
    intro i hv
    obtain ⟨c, hc, _⟩ := subtreeAt_cons_some hv
    rw [List.nil_append]
    simp only [relNames.eq_def, hc]
    rw [nameAt.eq_def]
    rw [subtreeAt.eq_def]
    simp only [hc]
    rfl
  | cons j a' ih =>
    intro i hv
    rw [List.cons_append] at hv
    obtain ⟨c, hc, hv'⟩ := subtreeAt_cons_some hv
    rw [List.cons_append]
    rw [relNames.eq_def]
    simp only [hc]
    rw [show relNames t (j :: a') = c.name.data :: relNames c a' from by
      rw [relNames.eq_def]; simp only [hc]]
    rw [ih c i hv']
    rw [nameAt_cons t j (a' ++ [i]) c hc]
    simp

theorem nodePath_data (t : CTree) :
    ∀ (a : List Nat), (subtreeAt t a).isSome → a ≠ [] →
      (nodePath t a).data = '/' :: joinSlash (relNames t a) := by
  intro a
  induction a using List.reverseRecOn with
  | nil => intro _ hne; exact absurd rfl hne
  | append_singleton l i ih =>
    intro hv _
    have hvl : (subtreeAt t l).isSome := by
      rw [subtreeAt_append] at hv
      cases hl : subtreeAt t l with
      | none => rw [hl] at hv; exact absurd hv (by simp)
      | some s => simp
    have hstep : nodePath t (l ++ [i]) =
        if (l ++ [i]).dropLast = [] then "/" ++ nameAt t (l ++ [i])
        else nodePathF l.length t ((l ++ [i]).dropLast) ++ "/" ++
          nameAt t (l ++ [i]) := by
      unfold nodePath
      rw [show (l ++ [i]).length = l.length + 1 from by simp]
      simp only [nodePathF]
      rw [if_neg (by simp)]
    by_cases hl0 : l = []
    · subst hl0
      rw [hstep, if_pos (by simp)]
      obtain ⟨c, hc, _⟩ := subtreeAt_cons_some (by simpa using hv)
      rw [List.nil_append]
      simp only [relNames.eq_def, hc]
      rw [show nameAt t [i] = c.name from by
        rw [nameAt.eq_def, subtreeAt.eq_def]; simp only [hc]; rfl]
      rfl
    · rw [hstep]
      rw [if_neg (by simpa [List.dropLast_concat] using hl0)]
      rw [List.dropLast_concat]
      rw [show nodePathF l.length t l = nodePath t l from rfl]
      have ihl := ih hvl hl0
      rw [relNames_concat t l i hv]
      rw [joinSlash_concat _ _ (relNames_ne_nil hvl hl0)]
      rw [String.data_append, String.data_append, ihl]
      rw [show ("/" : String).data = ['/'] from rfl]
      simp

theorem getNode_nodePath (t : CTree) (bm : List (String × String))
    (m n : List Nat) (hwf : WfTree t) (hn : validAddr t n = true) :
    getNode t bm m (nodePath t n) = Except.ok n := by
  have hnv : (subtreeAt t n).isSome := hn
  by_cases hn0 : n = []
  · subst hn0
    have hroot : nodePath t [] = "/" := by rw [nodePath]; rfl
    rw [hroot]
    rfl
  · have hdata := nodePath_data t n hnv hn0
    unfold getNode
    have hlen : (nodePath t n).length =
        (joinSlash (relNames t n)).length + 1 := by
      have : (nodePath t n).length = (nodePath t n).data.length := rfl
      rw [this, hdata]
      rfl
    rw [hlen, hdata]
    have hall : ∀ s ∈ relNames t n, s ≠ [] ∧ '/' ∉ s :=
      relNames_good t n hwf hnv
    have hrne : relNames t n ≠ [] := relNames_ne_nil hnv hn0
    obtain ⟨s0, rest0, hsegs⟩ : ∃ s0 rest0, relNames t n = s0 :: rest0 := by
      cases hsg : relNames t n with
      | nil => exact absurd hsg hrne
      | cons a b => exact ⟨a, b, rfl⟩
    have hs0 := hall s0 (by rw [hsegs]; simp)
    have hLne : joinSlash (relNames t n) ≠ [] := by
      rw [hsegs]
      exact joinSlash_ne_nil _ _ hs0.1
    have hLhead : (joinSlash (relNames t n)).head? = s0.head? := by
      rw [hsegs]
      exact joinSlash_head? _ _ hs0.1
    have hchain : ('/' :: joinSlash (relNames t n)).Chain'
        (fun a b => ¬(a = '/' ∧ b = '/')) := by
      rw [List.chain'_cons']
      refine ⟨?_, joinSlash_chain _ hall⟩
      intro y hy
      rw [hLhead] at hy
      have : y ∈ s0 := mem_of_head? hy
      exact fun hcc => hs0.2 (hcc.2 ▸ this)
    have hlast : ('/' :: joinSlash (relNames t n)).getLast? ≠ some '/' := by
      intro hl
      rw [show ('/' :: joinSlash (relNames t n)) =
        ['/'] ++ joinSlash (relNames t n) from rfl,
        List.getLast?_append_of_ne_nil _ hLne] at hl
      exact joinSlash_getLast? _ hall hrne '/' hl rfl
    rw [getNodeF_plain t bm ((joinSlash (relNames t n)).length + 1) m
      ('/' :: joinSlash (relNames t n)) (by simp)
      (by intro hq; exact absurd (show ('/' : Char) = '@' from hq) (by decide))
      (collapse_of_chain _ hchain) (rstrip_of_getLast _ hlast)]
    rw [if_pos (show ('/' :: joinSlash (relNames t n)).headD ' ' = '/' from rfl)]
    have hdrop : ('/' :: joinSlash (relNames t n)).dropWhile
        (fun c => c = '/') = joinSlash (relNames t n) := by
      rw [List.dropWhile_cons, if_pos (by simp)]
      cases hLh : (joinSlash (relNames t n)).head? with
      | none =>
        have : joinSlash (relNames t n) = [] := by
          cases hc : joinSlash (relNames t n) with
          | nil => rfl
          | cons a r => rw [hc] at hLh; exact Option.noConfusion hLh
        exact absurd this hLne
      | some a =>
        refine dropWhile_of_head hLh ?_
        intro ha
        rw [hLhead] at hLh
        exact hs0.2 (ha ▸ mem_of_head? hLh)
    rw [hdrop, if_pos hLne]
    have := resolveRel t bm n t [] ((joinSlash (relNames t n)).length + 1)
      rfl hwf hnv hn0 (by omega)
    rw [this]
    rfl

/-- C2 (amended): in a well-formed tree (sibling names pairwise distinct,
every name nonempty, none of `.`, `..`, containing `/` or starting with
`@`), rendering any node's absolute path and resolving it from any node of
the tree returns exactly that node. -/
theorem c2_roundtrip (t : CTree) (bm : List (String × String))
    (m n : List Nat) (hwf : WfTree t) (hn : validAddr t n = true) :
    getNode t bm m (nodePath t n) = Except.ok n :=
  getNode_nodePath t bm m n hwf hn

/-- A small concrete tree: root with children `a` (children `x`, `y`) and
`b` (a leaf). -/
def demoTree : CTree :=
  .node "root" [.node "a" [.node "x" [], .node "y" []], .node "b" []]

theorem demoTree_wf : WfTree demoTree := by
  refine WfTree.mk _ _ (by decide) (by decide) ?_
  intro c hc
  rcases List.mem_cons.mp hc with rfl | hc
  · refine WfTree.mk _ _ (by decide) (by decide) ?_
    intro d hd
    rcases List.mem_cons.mp hd with rfl | hd
    · exact WfTree.mk _ _ (by decide) (by decide) (by intro e he; simp at he)
    · rcases List.mem_cons.mp hd with rfl | hd
      · exact WfTree.mk _ _ (by decide) (by decide) (by intro e he; simp at he)
      · simp at hd
  · rcases List.mem_cons.mp hc with rfl | hc
    · exact WfTree.mk _ _ (by decide) (by decide) (by intro e he; simp at he)
    · simp at hc

theorem c2_witness :
    getNode demoTree [] [1] (nodePath demoTree [0, 1]) = Except.ok [0, 1] :=
  c2_roundtrip demoTree [] [1] [0, 1] demoTree_wf (by decide)

/-- A tree whose only child of the root is literally named `..`. -/
def dotdotTree : CTree := .node "root" [.node ".." []]

/-- C2 (counterexample): in a tree containing a node named `..` — which
`add_child` accepts, `_set_name` performs no validation — rendering that
node's path gives `/..`, and resolving `/..` from the root returns the root
itself, not the node. The claim quantified over every tree is false; name
well-formedness is required. -/
theorem c2_counterexample :
    validAddr dotdotTree [0] = true ∧
    getNode dotdotTree [] [] (nodePath dotdotTree [0]) = Except.ok [] ∧
    ¬ (getNode dotdotTree [] [] (nodePath dotdotTree [0]) = Except.ok [0]) := by
  have h1 : getNode dotdotTree [] [] (nodePath dotdotTree [0]) =
      Except.ok [] := rfl
  refine ⟨by decide, h1, fun h => ?_⟩
  have h2 := h1.symm.trans h
  injection h2 with h3
  exact List.noConfusion h3

/-! ## Shell command dispatch (shell.py `_execute_command`) -/

/-- The value a node's `execute_command` can hand back to the shell: a
ConfigNode (as an address), a string, `None`, or any other Python value. -/
inductive RValue where
  | node (a : List Nat)
  | str (s : String)
  | noneV
  | other

structure ShellState where
  tree : CTree
  bookmarks : List (String × String)
  current : List Nat
  exitFlag : Bool

/-- Python `str.rstrip('*')`. -/
def pyRstripStar (s : String) : String :=
  String.mk (s.data.reverse.dropWhile (fun c => c = '*')).reverse

/-- The children of a node, as addresses, in list order. -/
def childAddrs (t : CTree) (a : List Nat) : List (List Nat) :=
  match subtreeAt t a with
  | some st => (List.range st.children.length).map (fun i => a ++ [i])
  | none => []

/-- shell.py `_execute_command` lines 903-909: a ConfigNode return becomes
the current node, the string `EXIT` sets the exit flag, `None` is a no-op,
anything else raises ExecutionError. -/
def interpretResult (st : ShellState) (r : RValue) : Except String ShellState :=
  match r with
  | .node a => Except.ok { st with current := a }
  | .str s =>
    if s = "EXIT" then Except.ok { st with exitFlag := true }
    else Except.error "Unexpected result"
  | .noneV => Except.ok st
  | .other => Except.error "Unexpected result"

/-- shell.py `ConfigShell._execute_command` (lines 857-909). `exec` stands
for `target.execute_command`. A trailing `*` is stripped and records the
iterall flag; an empty path defaults to `.`; an empty command defaults to
`ls` (iterall) or `cd .`; a failed path resolution is logged and leaves the
state unchanged; otherwise the command runs on the target (or on each child
for iterall, keeping the last result) and the result is interpreted. -/
def executeCommand (st : ShellState) (path command : String)
    (pparams : List String) (kparams : List (String × String))
    (exec : List Nat → String → List String → List (String × String) → RValue) :
    Except String ShellState :=
  let pi := if path.data.getLast? = some '*' then (pyRstripStar path, true)
    else (path, false)
  let path1 := if pi.1 = "" then "." else pi.1
  let ci := if command = "" then
      (if pi.2 then ("ls", pparams) else ("cd", ["."]))
    else (command, pparams)
  match getNode st.tree st.bookmarks st.current path1 with
  | Except.error _ => Except.ok st
  | Except.ok target =>
    let targets := if pi.2 then childAddrs st.tree target else [target]
    let result := targets.foldl (fun _ tgt => exec tgt ci.1 ci.2 kparams)
      RValue.noneV
    interpretResult st result

/-- C3: the value returned by the target node's `execute_command` is
interpreted exactly as claimed: a node becomes the new current node, the
string `EXIT` sets the exit flag, `None` changes nothing, and any other
value raises ExecutionError; and for a plain dispatch (no iterall, explicit
path and command) the dispatcher applies that interpretation to the target
node's result. -/
theorem c3_result_interpretation :
    (∀ (st : ShellState) (path command : String) (pparams : List String)
       (kparams : List (String × String))
       (exec : List Nat → String → List String → List (String × String) →
         RValue) (tgt : List Nat),
       path.data.getLast? ≠ some '*' → path ≠ "" → command ≠ "" →
       getNode st.tree st.bookmarks st.current path = Except.ok tgt →
       executeCommand st path command pparams kparams exec =
         interpretResult st (exec tgt command pparams kparams)) ∧
    (∀ (st : ShellState) (a : List Nat),
       interpretResult st (RValue.node a) = Except.ok { st with current := a }) ∧
    (∀ st : ShellState,
       interpretResult st (RValue.str "EXIT") =
         Except.ok { st with exitFlag := true }) ∧
    (∀ st : ShellState, interpretResult st RValue.noneV = Except.ok st) ∧
    (∀ (st : ShellState) (r : RValue), (∀ a, r ≠ RValue.node a) →
       r ≠ RValue.str "EXIT" → r ≠ RValue.noneV →
       ∃ e, interpretResult st r = Except.error e) := by
  refine ⟨?_, fun st a => rfl, fun st => rfl, fun st => rfl, ?_⟩
  · intro st path command pparams kparams exec tgt hstar hpath hcmd hres
    unfold executeCommand
    rw [if_neg hstar]
    simp only
    rw [if_neg hpath, if_neg hcmd]
    simp only [hres]
    rfl
  · intro st r h1 h2 h3
    cases r with
    | node a => exact absurd rfl (h1 a)
    | str s =>
      have hs : ¬ (s = "EXIT") := fun hs => h2 (hs ▸ rfl)
      exact ⟨"Unexpected result", by simp [interpretResult, hs]⟩
    | noneV => exact absurd rfl h3
    | other => exact ⟨"Unexpected result", rfl⟩

theorem c3_witness :
    executeCommand ⟨demoTree, [], [], false⟩ "/a" "done" [] []
        (fun _ _ _ _ => RValue.node [1]) =
      interpretResult ⟨demoTree, [], [], false⟩ (RValue.node [1]) :=
  c3_result_interpretation.1 ⟨demoTree, [], [], false⟩ "/a" "done" [] []
    (fun _ _ _ _ => RValue.node [1]) [0] (by decide) (by decide) (by decide)
    (by rfl)

/-! ## The prompt (shell.py `_get_prompt`) -/

/-- Python slice `s[:i]` (negative indices count from the end, clamped). -/
def pySliceTo (s : List Char) (i : Int) : List Char :=
  s.take (if i < 0 then (s.length : Int) + i else i).toNat

/-- Python slice `s[i:]`. -/
def pySliceFrom (s : List Char) (i : Int) : List Char :=
  s.drop (if i < 0 then (s.length : Int) + i else i).toNat

/-- shell.py `_get_prompt` lines 776-782, the path portion of the prompt:
when `prompt_length` is truthy (non-zero) and smaller than the path length,
`half = (prompt_length - 3) / 2` with Python floor division and the path is
replaced by `prompt_path[:half] + "..." + prompt_path[-half:]`. -/
def promptPath (path : String) (promptLength : Int) : String :=
  if promptLength ≠ 0 ∧ promptLength < (path.length : Int) then
    String.mk (pySliceTo path.data (Int.fdiv (promptLength - 3) 2)) ++ "..." ++
      String.mk (pySliceFrom path.data (-(Int.fdiv (promptLength - 3) 2)))
  else path

/-- C8 (counterexample): with `prompt_length = 10` and the 12-character path
`/abcdefghijk`, the elided prompt path is `/ab...ijk` of length 9, not 10:
`half = (10-3)/2 = 3` floor-divides, so even prompt lengths produce
`prompt_length - 1` characters. -/
theorem c8_counterexample :
    (0 : Int) < 10 ∧ (10 : Int) < (("/abcdefghijk" : String).length : Int) ∧
    promptPath "/abcdefghijk" 10 = "/ab...ijk" ∧
    ¬ ((promptPath "/abcdefghijk" 10).length = 10) := by
  refine ⟨by decide, by decide, by decide, by decide⟩

/-- C8 (amended): for `5 ≤ prompt_length < len(path)` the path portion is
elided to `head ++ "..." ++ tail` where head is the first
`(prompt_length-3)/2` characters and tail the last `(prompt_length-3)/2`
characters, for a total of `2*((prompt_length-3)/2) + 3` characters — equal
to `prompt_length` when it is odd and to `prompt_length - 1` when it is
even. (For `prompt_length` in 1..4 the code misbehaves: `half ≤ 0` makes
the negative slice `[-half:]` return the whole path or worse.) -/
theorem c8_prompt_elision (path : String) (pl : Nat) (hpl : 5 ≤ pl)
    (hlt : (pl : Int) < (path.length : Int)) :
    promptPath path (pl : Int) =
      String.mk (path.data.take ((pl - 3) / 2)) ++ "..." ++
        String.mk (path.data.drop (path.length - (pl - 3) / 2)) ∧
    (promptPath path (pl : Int)).length = 2 * ((pl - 3) / 2) + 3 := by
  have hplne : (pl : Int) ≠ 0 := by
    intro h
    omega
  have hhalf : Int.fdiv ((pl : Int) - 3) 2 = (((pl - 3) / 2 : Nat) : Int) := by
    have h1 : ((pl : Int) - 3) = (((pl - 3 : Nat)) : Int) := by omega
    rw [h1]
    rw [show ((2 : Int)) = ((2 : Nat) : Int) from rfl]
    rw [Int.ofNat_fdiv]
  have hhalfpos : 1 ≤ (pl - 3) / 2 := by omega
  have hhalflt : (pl - 3) / 2 ≤ path.length := by
    have : (pl : Int) < (path.length : Int) := hlt
    omega
  have hlen : path.length = path.data.length := rfl
  have hto : pySliceTo path.data (Int.fdiv ((pl : Int) - 3) 2) =
      path.data.take ((pl - 3) / 2) := by
    rw [hhalf]
    unfold pySliceTo
    rw [if_neg (by omega)]
    have harg : ((((pl - 3) / 2 : Nat)) : Int).toNat = (pl - 3) / 2 := by
      omega
    rw [harg]
  have hfrom : pySliceFrom path.data (-(Int.fdiv ((pl : Int) - 3) 2)) =
      path.data.drop (path.length - (pl - 3) / 2) := by
    rw [hhalf]
    unfold pySliceFrom
    rw [if_pos (by omega)]
    have harg : ((path.data.length : Int) + -(((pl - 3) / 2 : Nat) : Int)).toNat =
        path.length - (pl - 3) / 2 := by
      rw [← hlen]
      omega
    rw [harg]
  have hmain : promptPath path (pl : Int) =
      String.mk (path.data.take ((pl - 3) / 2)) ++ "..." ++
        String.mk (path.data.drop (path.length - (pl - 3) / 2)) := by
    unfold promptPath
    rw [if_pos ⟨hplne, hlt⟩, hto, hfrom]
  refine ⟨hmain, ?_⟩
  rw [hmain]
  rw [String.length_append, String.length_append]
  show (path.data.take ((pl - 3) / 2)).length + ("..." : String).length +
    (path.data.drop (path.length - (pl - 3) / 2)).length = _
  rw [List.length_take, List.length_drop]
  rw [show ("..." : String).length = 3 from rfl]
  rw [← hlen]
  omega

theorem c8_witness :
    promptPath "/abcdefghijk" (7 : Nat) =
      String.mk (("/abcdefghijk" : String).data.take 2) ++ "..." ++
        String.mk (("/abcdefghijk" : String).data.drop
          (("/abcdefghijk" : String).length - 2)) ∧
    (promptPath "/abcdefghijk" (7 : Nat)).length = 2 * 2 + 3 :=
  c8_prompt_elision "/abcdefghijk" 7 (by decide) (by decide)

/-! ## Preferences and `set` (node.py `ui_command_set`, prefs.py) -/

/-- The Python values the global configuration parameters take. -/
inductive PyVal where
  | pynone
  | pybool (b : Bool)
  | pyint (i : Int)
  | pystr (s : String)
deriving DecidableEq

/-- Python 2 `int(str)`: strip whitespace, optional sign, decimal digits. -/
def pyInt (s : String) : Except String Int :=
  let t := pyStrip s.data
  let sd : Int × List Char := match t with
    | '+' :: rest => (1, rest)
    | '-' :: rest => (-1, rest)
    | _ => (1, t)
  if sd.2 ≠ [] ∧ sd.2.all Char.isDigit then
    Except.ok (sd.1 * ((sd.2.foldl (fun acc c => acc * 10 +
      (c.toNat - '0'.toNat)) 0 : Nat) : Int))
  else Except.error ("invalid literal for int(): " ++ s)

/-- node.py `ui_type_bool` (parse direction, lines 254-260). -/
def uiTypeBool (v : String) : Except String PyVal :=
  if v = "true" then Except.ok (PyVal.pybool true)
  else if v = "false" then Except.ok (PyVal.pybool false)
  else Except.error ("Syntax error, '" ++ v ++ "' is not true|false.")

/-- node.py `ui_type_number` (parse direction, lines 174-183): the empty
string is falsy and becomes `None`, otherwise `int(value)` with a
ValueError on parse failure. -/
def uiTypeNumber (v : String) : Except String PyVal :=
  if v = "" then Except.ok PyVal.pynone
  else
    match pyInt v with
    | Except.ok n => Except.ok (PyVal.pyint n)
    | Except.error _ =>
      Except.error ("Syntax error, '" ++ v ++ "' is not a NUMBER.")

/-- node.py `ui_type_string` (parse direction, lines 214-223). -/
def uiTypeString (v : String) : Except String PyVal :=
  if v = "" then Except.ok PyVal.pynone
  else Except.ok (PyVal.pystr v)

/-- log.py line 38. -/
def logLevels : List String := ["critical", "error", "warning", "info", "debug"]

/-- node.py `ui_type_loglevel` (parse direction, lines 291-295). -/
def uiTypeLoglevel (v : String) : Except String PyVal :=
  if v ∈ logLevels then Except.ok (PyVal.pystr v)
  else Except.error ("Syntax error, '" ++ v ++ "' is not a log level")

/-- console.py lines 53-54. -/
def consoleColors : List String :=
  ["black", "red", "green", "yellow", "blue", "magenta", "cyan", "white"]

/-- node.py `ui_type_color` (parse direction, lines 326-332). -/
def uiTypeColor (v : String) : Except String PyVal :=
  if v = "" ∨ v = "default" then Except.ok PyVal.pynone
  else if v ∈ consoleColors ++ ["default"] then Except.ok (PyVal.pystr v)
  else Except.error ("Syntax error, '" ++ v ++ "' is not a color")

/-- node.py `ui_type_colordefault` (parse direction, lines 363-369). -/
def uiTypeColordefault (v : String) : Except String PyVal :=
  if v = "" ∨ v = "none" then Except.ok PyVal.pynone
  else if v ∈ consoleColors ++ ["none"] then Except.ok (PyVal.pystr v)
  else Except.error ("Syntax error, '" ++ v ++ "' is not a color")

/-- node.py `__init__` lines 77-138: the `global` configuration group,
parameter name to type helper (descriptions dropped). -/
def globalGroup : List (String × (String → Except String PyVal)) :=
  [("tree_round_nodes", uiTypeBool),
   ("tree_status_mode", uiTypeBool),
   ("tree_max_depth", uiTypeNumber),
   ("tree_show_root", uiTypeBool),
   ("color_mode", uiTypeBool),
   ("loglevel_console", uiTypeLoglevel),
   ("loglevel_file", uiTypeLoglevel),
   ("logfile", uiTypeString),
   ("color_default", uiTypeColordefault),
   ("color_path", uiTypeColor),
   ("color_command", uiTypeColor),
   ("color_parameter", uiTypeColor),
   ("color_keyword", uiTypeColor),
   ("completions_in_columns", uiTypeBool),
   ("prompt_length", uiTypeNumber)]

def lookupHelper (g : List (String × (String → Except String PyVal)))
    (k : String) : Option (String → Except String PyVal) :=
  (g.find? (fun kv => kv.1 == k)).map (fun kv => kv.2)

/-- prefs.py `Prefs.__setitem__` (lines 59-67): plain dict assignment (the
autosave write is file I/O, outside the model). -/
def prefsSet (d : List (String × PyVal)) (k : String) (v : PyVal) :
    List (String × PyVal) :=
  if d.any (fun kv => kv.1 == k) then
    d.map (fun kv => if kv.1 = k then (k, v) else kv)
  else d ++ [(k, v)]

/-- prefs.py `Prefs.__getitem__` (lines 44-57): `None` for a missing key. -/
def prefsGet (d : List (String × PyVal)) (k : String) : PyVal :=
  match d.find? (fun kv => kv.1 == k) with
  | some kv => kv.2
  | none => PyVal.pynone

/-- Outcome of `ui_command_set`: the preferences store after the call, the
error messages logged, and the `(param, value)` pairs the group setter was
called with. -/
structure SetResult where
  prefs : List (String × PyVal)
  errors : List String
  setterCalls : List (String × PyVal)

def configGroups :
    List (String × List (String × (String → Except String PyVal))) :=
  [("global", globalGroup)]

/-- node.py `ui_command_set` lines 483-504 (the branch with a known group
and at least one `key=value` parameter; the listing branches print only).
For each parameter: unknown names are logged; a type-helper ValueError is
logged and the setter is not called; otherwise the setter stores the
parsed value (the follow-up getter/format/display round does not change
state). -/
def uiCommandSet (prefs : List (String × PyVal)) (group : String)
    (params : List (String × String)) : SetResult :=
  match (configGroups.find? (fun kv => kv.1 == group)).map (fun kv => kv.2) with
  | none => ⟨prefs, ["Unknown configuration group: " ++ group], []⟩
  | some g =>
    params.foldl (fun acc kv =>
      match lookupHelper g kv.1 with
      | none =>
        { acc with errors := acc.errors ++
            ["There is no parameter named '" ++ kv.1 ++ "'"] }
      | some helper =>
        match helper kv.2 with
        | Except.error msg =>
          { acc with errors := acc.errors ++
              ["Not setting " ++ kv.1 ++ "! " ++ msg] }
        | Except.ok v =>
          { acc with prefs := prefsSet acc.prefs kv.1 v,
                     setterCalls := acc.setterCalls ++ [(kv.1, v)] })
      ⟨prefs, [], []⟩

/-- C7: for every parameter `k` of the global group and every value string
`v` its type helper rejects, `set global k=v` logs the error, never calls
the group setter for `k`, and leaves the preferences store unchanged. -/
theorem c7_set_atomic_on_bad_value :
    ∀ (prefs : List (String × PyVal)) (k v : String)
      (helper : String → Except String PyVal),
      lookupHelper globalGroup k = some helper →
      (∃ e, helper v = Except.error e) →
      (uiCommandSet prefs "global" [(k, v)]).prefs = prefs ∧
      (uiCommandSet prefs "global" [(k, v)]).setterCalls = [] ∧
      (uiCommandSet prefs "global" [(k, v)]).errors ≠ [] := by
  intro prefs k v helper hlk ⟨e, he⟩
  have hg : (configGroups.find? (fun kv => kv.1 == "global")).map
      (fun kv => kv.2) = some globalGroup := rfl
  unfold uiCommandSet
  rw [hg]
  simp [List.foldl_cons, List.foldl_nil, hlk, he]

theorem c7_witness :
    (uiCommandSet [("prompt_length", PyVal.pyint 4)] "global"
        [("prompt_length", "abc")]).prefs = [("prompt_length", PyVal.pyint 4)] ∧
    (uiCommandSet [("prompt_length", PyVal.pyint 4)] "global"
        [("prompt_length", "abc")]).setterCalls = [] ∧
    (uiCommandSet [("prompt_length", PyVal.pyint 4)] "global"
        [("prompt_length", "abc")]).errors ≠ [] :=
  c7_set_atomic_on_bad_value [("prompt_length", PyVal.pyint 4)]
    "prompt_length" "abc" uiTypeNumber rfl ⟨_, rfl⟩

/-! ## Path completion (shell.py `_complete_token_path`) -/

/-- Python `str.startswith`: first argument the string, second the
candidate start. -/
def startsWithL : List Char → List Char → Bool
  | _, [] => true
  | [], _ :: _ => false
  | b :: l', a :: p' => a = b && startsWithL l' p'

/-- Python `text.rpartition('/')`: split at the last `/` into
(before, separator, after); `([], [], text)` when there is none. -/
def rpartitionSlash (l : List Char) : List Char × List Char × List Char :=
  if '/' ∈ l then
    ((splitFirst '/' l.reverse).2.reverse, ['/'],
      (splitFirst '/' l.reverse).1.reverse)
  else ([], [], l)

def childrenOf (t : CTree) (a : List Nat) : List CTree :=
  match subtreeAt t a with
  | some st => st.children
  | none => []

def endsWithStarSpace (s : String) : Bool :=
  startsWithL s.data.reverse [' ', '*']

/-- `num_matches += 1` in the loop of `_complete_token_path`. -/
def pyIncr (n : Nat) : Nat := n + 1

/-- shell.py `ConfigShell._complete_token_path` (lines 400-459). A text
ending in `.` gets a `/` appended; the text splits at its last `/` into
`basedir` (kept with the slash) and the typed partial name; `basedir`
resolves from the current node (a failure propagates, the source does not
catch it); with more than one child and an empty or `*` partial the iterall
candidate `basedir* ` is emitted; each child whose name starts with the
partial is emitted as `basedir + name + '/'` (the source resets
`num_matches` to 0 inside the loop, so the incremented value is always 1
and its else-branch never runs); bookmark candidates follow; finally, a
single candidate not ending in `* ` whose node has no children is rewritten
to end in a space instead of a slash. -/
def completeTokenPath (t : CTree) (bm : List (String × String))
    (cur : List Nat) (text : String) : Except String (List String) :=
  let text1 := if text.data.getLast? = some '.' then text ++ "/" else text
  let rp := rpartitionSlash text1.data
  let basedir := String.mk (rp.1 ++ rp.2.1)
  match getNode t bm cur basedir with
  | Except.error e => Except.error e
  | Except.ok target =>
    let names := (childrenOf t target).map CTree.name
    let comp1 : List String :=
      if names ≠ [] ∧ (rp.2.2 = [] ∨ rp.2.2 = ['*']) ∧ names.length > 1 then
        [basedir ++ "* "]
      else []
    let comp2 := names.foldl (fun acc nm =>
      if startsWithL nm.data rp.2.2 then
        (if pyIncr 0 = 1 then acc ++ [basedir ++ nm ++ "/"]
         else acc ++ [basedir ++ nm])
      else acc) comp1
    let comp3 := comp2 ++ ((bm.map (fun kv => kv.1)).filter
      (fun k => startsWithL k.data
        (text1.data.dropWhile (fun c => c = '@')))).map (fun k => "@" ++ k)
    if comp3.length = 1 then
      if ¬ (endsWithStarSpace (comp3.headD "") = true) then
        match getNode t bm cur (comp3.headD "") with
        | Except.error e => Except.error e
        | Except.ok node =>
          if (childrenOf t node).isEmpty then
            Except.ok [String.mk (rstripSlash (comp3.headD "").data) ++ " "]
          else Except.ok comp3
      else Except.ok comp3
    else Except.ok comp3

/-- The amended C4 behavior, written as the amended claim reads: every
child whose name starts with the partial is emitted as
`basedir + name + '/'` regardless of whether it has children; only when
the complete candidate list is a single entry not ending in `* ` whose
node is childless is that entry rewritten to `basedir + name + ' '`. -/
def completeTokenPathAmended (t : CTree) (bm : List (String × String))
    (cur : List Nat) (text : String) : Except String (List String) :=
  let text1 := if text.data.getLast? = some '.' then text ++ "/" else text
  let rp := rpartitionSlash text1.data
  let basedir := String.mk (rp.1 ++ rp.2.1)
  match getNode t bm cur basedir with
  | Except.error e => Except.error e
  | Except.ok target =>
    let names := (childrenOf t target).map CTree.name
    let comp1 : List String :=
      if names ≠ [] ∧ (rp.2.2 = [] ∨ rp.2.2 = ['*']) ∧ names.length > 1 then
        [basedir ++ "* "]
      else []
    let comp2 := comp1 ++
      (names.filter (fun nm => startsWithL nm.data rp.2.2)).map
        (fun nm => basedir ++ nm ++ "/")
    let comp3 := comp2 ++ ((bm.map (fun kv => kv.1)).filter
      (fun k => startsWithL k.data
        (text1.data.dropWhile (fun c => c = '@')))).map (fun k => "@" ++ k)
    if comp3.length = 1 then
      if ¬ (endsWithStarSpace (comp3.headD "") = true) then
        match getNode t bm cur (comp3.headD "") with
        | Except.error e => Except.error e
        | Except.ok node =>
          if (childrenOf t node).isEmpty then
            Except.ok [String.mk (rstripSlash (comp3.headD "").data) ++ " "]
          else Except.ok comp3
      else Except.ok comp3
    else Except.ok comp3

theorem foldl_matches (basedir : String) (p : List Char) :
    ∀ (names : List String) (acc : List String),
      names.foldl (fun acc nm =>
        if startsWithL nm.data p then
          (if pyIncr 0 = 1 then acc ++ [basedir ++ nm ++ "/"]
           else acc ++ [basedir ++ nm])
        else acc) acc =
      acc ++ (names.filter (fun nm => startsWithL nm.data p)).map
        (fun nm => basedir ++ nm ++ "/") := by
  intro names
  induction names with
  | nil => intro acc; simp
  | cons nm rest ih =>
    intro acc
    rw [List.foldl_cons, ih]
    by_cases hs : startsWithL nm.data p = true <;> simp [hs, pyIncr]

/-- C4 (amended): in the path completion strategy every matching child is
emitted as `basedir + childname + '/'` whether or not it has children (the
source's per-child trailing-space branch is dead code: `num_matches` is
reset inside the loop); the trailing-space form only appears when the
final candidate list is a single non-iterall entry resolving to a
childless node, which is then rewritten to `basedir + childname + ' '`.
Stated as: the source function coincides with the amended-claim function
on every input. -/
theorem c4_match_formatting :
    ∀ (t : CTree) (bm : List (String × String)) (cur : List Nat)
      (text : String),
      completeTokenPath t bm cur text = completeTokenPathAmended t bm cur text := by
  intro t bm cur text
  unfold completeTokenPath completeTokenPathAmended
  simp only [foldl_matches]

/-- C4 (counterexample): completing `/` at the root of `demoTree` — where
child `b` has no children — yields `/b/` with a trailing slash, not the
claimed `/b ` with a trailing space, because three candidates are present. -/
theorem c4_counterexample :
    completeTokenPath demoTree [] [] "/" =
      Except.ok ["/* ", "/a/", "/b/"] ∧
    childrenOf demoTree [1] = [] ∧
    ¬ ("/b " ∈ ["/* ", "/a/", "/b/"]) :=
  ⟨rfl, rfl, by decide⟩

/-- C5 (amended): completion of the buffer `/a/` at the end of the buffer,
in the tree root[a[x, y], b], returns exactly `["/a/* ", "/a/x/", "/a/y/"]`:
the iterall candidate first (the partial name is empty and `a` has more
than one child), then the children in iteration order. -/
theorem c5_slash_a_completion :
    completeTokenPath demoTree [] [] "/a/" =
      Except.ok ["/a/* ", "/a/x/", "/a/y/"] := rfl

/-- C5 (counterexample): the claimed candidate list `["/a/x/", "/a/y/"]` is
not what the strategy returns — the iterall candidate `/a/* ` is also
emitted. -/
theorem c5_counterexample :
    ¬ (completeTokenPath demoTree [] [] "/a/" =
        Except.ok ["/a/x/", "/a/y/"]) := by
  intro h
  have h1 : completeTokenPath demoTree [] [] "/a/" =
      Except.ok ["/a/* ", "/a/x/", "/a/y/"] := rfl
  have h2 := h1.symm.trans h
  injection h2 with h3
  exact absurd h3 (by decide)

/-! ## `cd` history navigation (node.py `ui_command_cd`, `<` and `>`) -/

theorem headD_some {l : List Char} (hne : l ≠ []) :
    l.head? = some (l.headD ' ') := by
  cases l with
  | nil => exact absurd rfl hne
  | cons a r => rfl

theorem collapse_ne_nil : ∀ l : List Char, l ≠ [] → collapseSlashes l ≠ [] := by
  intro l hne
  cases l with
  | nil => exact absurd rfl hne
  | cons c rest =>
    cases rest with
    | nil => simp [collapseSlashes]
    | cons d rest' =>
      rw [collapseSlashes]
      split
      · exact collapse_ne_nil (d :: rest') (by simp)
      · simp

theorem collapse_headD : ∀ l : List Char,
    (collapseSlashes l).headD ' ' = l.headD ' ' := by
  intro l
  cases l with
  | nil => rfl
  | cons c rest =>
    cases rest with
    | nil => rfl
    | cons d rest' =>
      rw [collapseSlashes]
      split
      · rename_i hcd
        rw [collapse_headD (d :: rest')]
        show d = (c :: d :: rest').headD ' '
        rw [hcd.1, hcd.2]
        rfl
      · rfl

theorem collapse_chain : ∀ l : List Char,
    (collapseSlashes l).Chain' (fun a b => ¬(a = '/' ∧ b = '/')) := by
  intro l
  cases l with
  | nil => exact List.chain'_nil
  | cons c rest =>
    cases rest with
    | nil => exact List.chain'_singleton c
    | cons d rest' =>
      rw [collapseSlashes]
      split
      · exact collapse_chain (d :: rest')
      · rename_i hcd
        rw [List.chain'_cons']
        refine ⟨?_, collapse_chain (d :: rest')⟩
        intro y hy
        rw [headD_some (collapse_ne_nil (d :: rest') (by simp)),
          collapse_headD (d :: rest')] at hy
        have hyd : y = d := by
          have := Option.some.inj hy
          exact this.symm
        exact hyd ▸ hcd

theorem headD_append {a b : List Char} (ha : a ≠ []) :
    (a ++ b).headD ' ' = a.headD ' ' := by
  cases a with
  | nil => exact absurd rfl ha
  | cons x r => rfl

theorem rstrip_append (l : List Char) :
    rstripSlash l ++ (l.reverse.takeWhile (fun c => c = '/')).reverse = l := by
  unfold rstripSlash
  rw [← List.reverse_append, List.takeWhile_append_dropWhile,
    List.reverse_reverse]

theorem rstrip_headD (l : List Char) (hne : rstripSlash l ≠ []) :
    (rstripSlash l).headD ' ' = l.headD ' ' := by
  conv_rhs => rw [← rstrip_append l]
  rw [headD_append hne]

theorem rstrip_ne_nil_of_chain (l : List Char)
    (hch : l.Chain' (fun a b => ¬(a = '/' ∧ b = '/')))
    (hlen : 1 < l.length) : rstripSlash l ≠ [] := by
  intro hr
  have hall : ∀ c ∈ l.reverse, c = '/' := by
    have hdw : l.reverse.dropWhile (fun c => c = '/') = [] := by
      rw [rstripSlash] at hr
      exact List.reverse_eq_nil_iff.mp hr
    intro c hc
    have := List.dropWhile_eq_nil_iff.mp hdw c hc
    simpa using this
  obtain ⟨c1, c2, rest, hl⟩ : ∃ c1 c2 rest, l = c1 :: c2 :: rest := by
    cases l with
    | nil => simp at hlen
    | cons x r =>
      cases r with
      | nil => simp at hlen
      | cons y r' => exact ⟨x, y, r', rfl⟩
  subst hl
  have h1 : c1 = '/' := hall c1 (by simp)
  have h2 : c2 = '/' := hall c2 (by simp)
  rw [List.chain'_cons] at hch
  exact hch.1 ⟨h1, h2⟩

/-- An absolute path resolves identically from every starting node: the
absolute branch of `get_node` restarts from the root before any use of
`self`. -/
theorem getNodeF_self_irrelevant (t : CTree) (bm : List (String × String)) :
    ∀ (fuel : Nat) (s1 s2 : List Nat) (p : List Char),
      p.headD ' ' = '/' →
      getNodeF t bm fuel s1 p = getNodeF t bm fuel s2 p := by
  intro fuel s1 s2 p hp
  cases fuel with
  | zero => rfl
  | succ f =>
    have hpne : p ≠ [] := by
      intro h
      rw [h] at hp
      exact absurd hp (by decide)
    have hat : ¬ (p.headD ' ' = '@') := by
      rw [hp]
      decide
    simp only [getNodeF, if_neg hpne, if_neg hat]
    have h4 : (if (collapseSlashes p).length > 1 then
        rstripSlash (collapseSlashes p) else collapseSlashes p).headD ' ' = '/' := by
      split
      · rename_i hlen
        rw [rstrip_headD _ (rstrip_ne_nil_of_chain _ (collapse_chain p) hlen)]
        rw [collapse_headD]
        exact hp
      · rw [collapse_headD]
        exact hp
    rw [if_pos h4, if_pos h4]

theorem getNode_self_irrelevant (t : CTree) (bm : List (String × String))
    (s1 s2 : List Nat) (p : String) (hp : p.data.headD ' ' = '/') :
    getNode t bm s1 p = getNode t bm s2 p :=
  getNodeF_self_irrelevant t bm (p.length + 1) s1 s2 p.data hp

def isOkE {α : Type} : Except String α → Bool
  | Except.ok _ => true
  | Except.error _ => false

theorem isOkE_exists {α : Type} {r : Except String α} (h : isOkE r = true) :
    ∃ v, r = Except.ok v := by
  cases r with
  | ok v => exact ⟨v, rfl⟩
  | error e => exact absurd h (by simp [isOkE])

theorem isOkE_error {α : Type} {r : Except String α} (h : isOkE r = false) :
    ∃ e, r = Except.error e := by
  cases r with
  | ok v => exact absurd h (by simp [isOkE])
  | error e => exact ⟨e, rfl⟩

/-- node.py `ui_command_cd` lines 938-955, the `while not exists` loop of
`cd <`, entered with the current value of `path_history_index`: while the
index is positive, decrement it and try to resolve the entry there; on the
first success the loop ends with that entry; if the index reaches zero
without success, the entry 0 is overwritten with `/` and the loop ends with
`/`. Returns (path found, history, index) — the final state of the
preferences the loop writes. -/
def cdBackLoop (t : CTree) (bm : List (String × String)) (self : List Nat)
    (hist : List String) : Nat → String × List String × Nat
  | 0 => ("/", hist.set 0 "/", 0)
  | idx + 1 =>
    match getNode t bm self (hist.getD idx "") with
    | Except.ok _ => (hist.getD idx "", hist, idx)
    | Except.error _ => cdBackLoop t bm self hist idx

/-- node.py `ui_command_cd` lines 965-984, the loop of `cd >`, with
`gap = len(path_history) - 1 - index` counting the entries still ahead:
while entries remain ahead, increment the index and try to resolve the
entry there; on success the loop ends there; when the end is reached, the
current node's path is appended to the history and the index set past the
old end. -/
def cdFwdLoop (t : CTree) (bm : List (String × String)) (self : List Nat)
    (hist : List String) : Nat → Nat → String × List String × Nat
  | _, 0 => (nodePath t self, hist ++ [nodePath t self], hist.length)
  | idx, gap + 1 =>
    match getNode t bm self (hist.getD (idx + 1) "") with
    | Except.ok _ => (hist.getD (idx + 1) "", hist, idx + 1)
    | Except.error _ => cdFwdLoop t bm self hist (idx + 1) gap

/-- node.py `ConfigNode.ui_command_cd` (lines 892-1013), with the history
state explicit: `histO` is `prefs['path_history']` (`none` before first
use, then initialized to the current node's path), `idx0` is
`prefs['path_history_index']`. Returns (command result, history, index).
The result is `none` when the path does not resolve (the source returns
`None` after logging); the interactive picker (`path=None`) is the external
collaborator and is not modelled, so `path` is a plain string here. `<` and
`>` walk the history as in the loops above and re-resolve the found path;
a normal path that resolves to a node whose path differs from the entry at
the index truncates the history after the index and appends it. -/
def uiCommandCd (t : CTree) (bm : List (String × String)) (self : List Nat)
    (histO : Option (List String)) (idx0 : Nat) (path : String) :
    Except String (Option (List Nat)) × List String × Nat :=
  let hi : List String × Nat := match histO with
    | none => ([nodePath t self], 0)
    | some h => (h, idx0)
  if path = "<" then
    if hi.2 = 0 then (Except.ok (some self), hi.1, hi.2)
    else
      ((getNode t bm self (cdBackLoop t bm self hi.1 hi.2).1).map
          (fun n => some n),
        (cdBackLoop t bm self hi.1 hi.2).2.1,
        (cdBackLoop t bm self hi.1 hi.2).2.2)
  else if path = ">" then
    if hi.2 = hi.1.length - 1 then (Except.ok (some self), hi.1, hi.2)
    else
      ((getNode t bm self
          (cdFwdLoop t bm self hi.1 hi.2 (hi.1.length - 1 - hi.2)).1).map
          (fun n => some n),
        (cdFwdLoop t bm self hi.1 hi.2 (hi.1.length - 1 - hi.2)).2.1,
        (cdFwdLoop t bm self hi.1 hi.2 (hi.1.length - 1 - hi.2)).2.2)
  else
    match getNode t bm self path with
    | Except.error _ => (Except.ok none, hi.1, hi.2)
    | Except.ok target =>
      if nodePath t target ≠ hi.1.getD hi.2 "" then
        (Except.ok (some target),
          hi.1.take (hi.2 + 1) ++ [nodePath t target], hi.2 + 1)
      else (Except.ok (some target), hi.1, hi.2)

theorem getD_mem {hist : List String} {j : Nat} (hj : j < hist.length) :
    hist.getD j "" ∈ hist := by
  rw [List.getD_eq_getElem hist "" hj]
  exact List.getElem_mem hj

theorem cdBackLoop_finds (t : CTree) (bm : List (String × String))
    (m : List Nat) (hist : List String)
    (habs : ∀ s ∈ hist, s.data.headD ' ' = '/') :
    ∀ k, k ≤ hist.length →
      (∃ j, j < k ∧ isOkE (getNode t bm [] (hist.getD j "")) = true) →
      ∃ J, J < k ∧ isOkE (getNode t bm [] (hist.getD J "")) = true ∧
        (∀ x, J < x → x < k →
          isOkE (getNode t bm [] (hist.getD x "")) = false) ∧
        cdBackLoop t bm m hist k = (hist.getD J "", hist, J) := by
  intro k
  induction k with
  | zero =>
    rintro _ ⟨j, hj, _⟩
    omega
  | succ k ih =>
    intro hk hex
    have hmem : hist.getD k "" ∈ hist := getD_mem (by omega)
    have heq : getNode t bm m (hist.getD k "") =
        getNode t bm [] (hist.getD k "") :=
      getNode_self_irrelevant t bm m [] _ (habs _ hmem)
    by_cases hok : isOkE (getNode t bm [] (hist.getD k "")) = true
    · refine ⟨k, by omega, hok, by omega, ?_⟩
      obtain ⟨v, hv⟩ := isOkE_exists hok
      rw [cdBackLoop, heq, hv]
    · have hok' : isOkE (getNode t bm [] (hist.getD k "")) = false := by
        simpa using hok
      obtain ⟨j, hj, hjok⟩ := hex
      have hjk : j < k := by
        rcases Nat.lt_or_ge j k with h | h
        · exact h
        · have : j = k := by omega
          rw [this] at hjok
          rw [hjok] at hok'
          exact absurd hok' (by simp)
      obtain ⟨J, hJ, hJok, hJmax, hJloop⟩ := ih (by omega) ⟨j, hjk, hjok⟩
      refine ⟨J, by omega, hJok, ?_, ?_⟩
      · intro x hx1 hx2
        rcases Nat.lt_or_ge x k with h | h
        · exact hJmax x hx1 h
        · have : x = k := by omega
          rw [this]
          exact hok'
      · obtain ⟨e, he⟩ := isOkE_error hok'
        rw [cdBackLoop, heq, he]
        exact hJloop

theorem cdFwdLoop_finds (t : CTree) (bm : List (String × String))
    (m : List Nat) (hist : List String)
    (habs : ∀ s ∈ hist, s.data.headD ' ' = '/') :
    ∀ (gap idx i : Nat), idx < i → i ≤ idx + gap → i < hist.length →
      isOkE (getNode t bm [] (hist.getD i "")) = true →
      (∀ x, idx < x → x < i →
        isOkE (getNode t bm [] (hist.getD x "")) = false) →
      cdFwdLoop t bm m hist idx gap = (hist.getD i "", hist, i) := by
  intro gap
  induction gap with
  | zero =>
    intro idx i h1 h2 _ _ _
    omega
  | succ gap ih =>
    intro idx i h1 h2 h3 hok hmax
    have hmem : hist.getD (idx + 1) "" ∈ hist := getD_mem (by omega)
    have heq : getNode t bm m (hist.getD (idx + 1) "") =
        getNode t bm [] (hist.getD (idx + 1) "") :=
      getNode_self_irrelevant t bm m [] _ (habs _ hmem)
    by_cases hi : i = idx + 1
    · subst hi
      obtain ⟨v, hv⟩ := isOkE_exists hok
      rw [cdFwdLoop, heq, hv]
    · have hlt : idx + 1 < i := by omega
      have hbad : isOkE (getNode t bm [] (hist.getD (idx + 1) "")) = false :=
        hmax (idx + 1) (by omega) hlt
      obtain ⟨e, he⟩ := isOkE_error hbad
      rw [cdFwdLoop, heq, he]
      exact ih (idx + 1) i hlt (by omega) h3 hok
        (fun x hx1 hx2 => hmax x (by omega) hx2)

/-- C6: when the history entry at the current index is the rendered path of
a node of the (well-formed) tree and some earlier entry still resolves,
`cd <` followed by `cd >` returns exactly the node of the entry at the
original index, with `path_history_index` restored and `path_history`
unchanged by both calls. (History entries are absolute paths — the code
only ever stores `node.path` values — which the hypothesis `habs` records.) -/
theorem c6_history_roundtrip (t : CTree) (bm : List (String × String))
    (m a : List Nat) (hist : List String) (idx : Nat)
    (hwf : WfTree t) (ha : validAddr t a = true)
    (hpos : 0 < idx) (hidx : idx < hist.length)
    (hentry : hist.getD idx "" = nodePath t a)
    (habs : ∀ s ∈ hist, s.data.headD ' ' = '/')
    (hback : ∃ j, j < idx ∧ isOkE (getNode t bm [] (hist.getD j "")) = true) :
    ∃ (n1 : List Nat) (idx1 : Nat),
      uiCommandCd t bm m (some hist) idx "<" =
        (Except.ok (some n1), hist, idx1) ∧
      uiCommandCd t bm n1 (some hist) idx1 ">" =
        (Except.ok (some a), hist, idx) ∧
      nodePath t a = hist.getD idx "" := by
  obtain ⟨J, hJlt, hJok, hJmax, hJloop⟩ :=
    cdBackLoop_finds t bm m hist habs idx (by omega) hback
  obtain ⟨n1, hn1⟩ := isOkE_exists hJok
  have hn1m : getNode t bm m (hist.getD J "") = Except.ok n1 := by
    rw [getNode_self_irrelevant t bm m [] _ (habs _ (getD_mem (by omega)))]
    exact hn1
  have hidxok : isOkE (getNode t bm [] (hist.getD idx "")) = true := by
    rw [hentry, getNode_nodePath t bm [] a hwf ha]
    rfl
  refine ⟨n1, J, ?_, ?_, hentry.symm⟩
  · show uiCommandCd t bm m (some hist) idx "<" = _
    unfold uiCommandCd
    rw [if_pos rfl]
    simp only
    rw [if_neg (by omega), hJloop]
    simp only [hn1m]
    rfl
  · unfold uiCommandCd
    rw [if_neg (by decide), if_pos rfl]
    simp only
    have hJne : ¬ (J = hist.length - 1) := by omega
    rw [if_neg hJne]
    have hfwd := cdFwdLoop_finds t bm n1 hist habs (hist.length - 1 - J) J idx
      hJlt (by omega) hidx hidxok hJmax
    rw [hfwd]
    have hails : getNode t bm n1 (hist.getD idx "") = Except.ok a := by
      rw [getNode_self_irrelevant t bm n1 [] _ (habs _ (getD_mem hidx))]
      rw [hentry]
      exact getNode_nodePath t bm [] a hwf ha
    simp only [hails]
    rfl

theorem c6_witness :
    ∃ (n1 : List Nat) (idx1 : Nat),
      uiCommandCd demoTree [] [] (some ["/", "/nope", "/a"]) 2 "<" =
        (Except.ok (some n1), ["/", "/nope", "/a"], idx1) ∧
      uiCommandCd demoTree [] n1 (some ["/", "/nope", "/a"]) idx1 ">" =
        (Except.ok (some [0]), ["/", "/nope", "/a"], 2) ∧
      nodePath demoTree [0] = (["/", "/nope", "/a"] : List String).getD 2 "" :=
  c6_history_roundtrip demoTree [] [] [0] ["/", "/nope", "/a"] 2
    demoTree_wf (by decide) (by decide) (by decide) (by decide)
    (by
      intro s hs
      rcases List.mem_cons.mp hs with rfl | hs
      · decide
      · rcases List.mem_cons.mp hs with rfl | hs
        · decide
        · rcases List.mem_cons.mp hs with rfl | hs
          · decide
          · simp at hs)
    ⟨0, by decide, by rfl⟩

end ConfigShell
